import Mathlib

/-!
Verification of the Markdown message engine of `mdbook-i18n-helpers`.

This development shallowly embeds the core event pipeline of
`i18n-helpers/src/lib.rs` (event extraction, grouping with code-block
sub-parsing, translation), the catalog normalizer of
`i18n-helpers/src/normalize.rs`, the unique output-path builder of
`i18n-helpers/src/xgettext/paths.rs`, and the source-line formatter of
`i18n-helpers/src/xgettext.rs`.

External collaborators are abstracted as function parameters:

* the CommonMark parser (`pulldown_cmark`) is a parameter
  `parse : String → List (Event × Nat)` giving the raw events with the
  byte offset at which each event's range starts;
* the Markdown serializer (`pulldown_cmark_to_cmark`'s
  `cmark_resume_with_options`, together with
  `calculate_code_block_token_count` and the fixed style options) is a
  `Serializer` structure whose abstract state models the serializer
  `State` (the `simplify` field models the record update that zeroes
  `newlines_before_start` and clears `padding`);
* the syntax tokenizer (`syntect`'s `ParseState` / `ScopeRangeIterator`
  / `ScopeStack`) is a `Tokenizer` structure: `parseLine` consumes one
  text event and reports either a parse failure, or the scope ranges it
  produced together with a flag recording a mid-line stack-apply
  failure;
* the directive recognizer `directives::find` is a parameter
  `fd : String → Option Directive`.

Strings are modelled with character (not byte) indices; the tokenizer
oracle's ranges live in the same index space, so the two stay
consistent.  Everything from the repository itself is translated
directly from the Rust source.
-/

namespace MdbookI18n

/-! ## String helpers (modelling the Rust `str` operations used) -/

/-- Concatenate a list of strings. -/
def strConcat (l : List String) : String :=
  l.foldl (· ++ ·) ""

/-- Join strings with a separator, like Rust's `join`. -/
def joinSep (sep : String) : List String → String
  | [] => ""
  | [s] => s
  | s :: rest => s ++ sep ++ joinSep sep rest

/-- Character-level slice `s[a..b]` of a string. -/
def strSlice (s : String) (a b : Nat) : String :=
  String.mk ((s.data.drop a).take (b - a))

/-- Whether every character of the string is a space or a tab.  This is
how the grouper tests `text.trim_matches(&[' ', '\t']).is_empty()`. -/
def isSpaceTab (s : String) : Bool :=
  s.data.all fun c => c = ' ' || c = '\t'

/-- The number of `\n` characters in a string. -/
def newlineCount (s : String) : Nat :=
  s.data.countP (· = '\n')

/-- Offsets (character indices) of each `\n` in the input, mirroring
`text.match_indices('\n')` in `extract_events`. -/
def newlineOffsets (s : String) : List Nat :=
  (s.data.enum.filter fun p => p.2 = '\n').map (·.1)

/-- Rust's `str::split_inclusive('\n')` on the character list: chunks
that keep their trailing newline; the final chunk may lack one; the
empty string yields no chunks. -/
def splitInclusiveNl : List Char → List (List Char)
  | [] => []
  | c :: cs =>
    if c = '\n' then [c] :: splitInclusiveNl cs
    else
      match splitInclusiveNl cs with
      | [] => [[c]]
      | l :: ls => (c :: l) :: ls

/-- Rust's `str::lines()`: split on `\n`, drop a final empty chunk,
strip a trailing `\r` from every line. -/
def rustLines (s : String) : List String :=
  (splitInclusiveNl s.data).map fun l =>
    let l := if l.getLast? = some '\n' then l.dropLast else l
    let l := if l.getLast? = some '\r' then l.dropLast else l
    String.mk l

/-- Number of lines of a string in the sense of the specification: one
more than the number of newline characters (each newline ends a line,
and the final fragment counts as a line). -/
def countLines (s : String) : Nat :=
  newlineCount s + 1

/-- `s.trim_start_matches('\n')` from `reconstruct_markdown`. -/
def trimLeadingNewlines (s : String) : String :=
  String.mk (s.data.dropWhile (· = '\n'))

/-- Whether `pat` occurs as a contiguous substring of `s` (Rust's
`str::contains(&str)`). -/
def containsSub (s pat : String) : Bool :=
  decide (pat.data <:+: s.data)

/-- Whether a character occurs in a string (Rust's
`str::contains(char)`). -/
def containsChar (s : String) (c : Char) : Bool :=
  s.data.contains c

/-- Split a character list at every occurrence of `c` (Rust's
`str::split(char)`: n separators give n+1 pieces). -/
def splitChar (c : Char) : List Char → List (List Char)
  | [] => [[]]
  | x :: xs =>
    if x = c then [] :: splitChar c xs
    else
      match splitChar c xs with
      | [] => [[x]]
      | l :: ls => (x :: l) :: ls

/-- Rust's `str::split_whitespace`: whitespace-separated words, empty
words skipped. -/
def splitWhitespaceStr (s : String) : List String :=
  ((s.data.splitOnP (·.isWhitespace)).map String.mk).filter (· ≠ "")

/-- Fuel-driven worker for `replaceChars`: each step consumes at least
one character, so fuel equal to the list length suffices. -/
def replaceCharsGo (pat sub : List Char) : Nat → List Char → List Char
  | _, [] => []
  | 0, l => l
  | fuel + 1, c :: cs =>
    if pat ≠ [] ∧ pat.isPrefixOf (c :: cs) then
      sub ++ replaceCharsGo pat sub fuel ((c :: cs).drop pat.length)
    else
      c :: replaceCharsGo pat sub fuel cs

/-- Replace every (leftmost-first, non-overlapping) occurrence of
`pat` by `sub` in a character list; used for `str::replace`. -/
def replaceChars (pat sub : List Char) (l : List Char) : List Char :=
  replaceCharsGo pat sub l.length l

/-- Lowercase a string character by character (adequate for the ASCII
slugs handled here; mirrors `str::to_lowercase`). -/
def lowerStr (s : String) : String :=
  String.mk (s.data.map Char.toLower)

/-! ## The event model

Mirrors the `pulldown_cmark` event types used by the pipeline
(`Event`, `Tag`, `TagEnd`, `LinkType`, `CodeBlockKind`).  The grouper
matches on specific constructors and sends everything else to a
catch-all arm, so the embedding carries all constructor classes that
the source distinguishes. -/

/-- `pulldown_cmark::LinkType`. -/
inductive LinkType where
  | inline
  | reference
  | referenceUnknown
  | collapsed
  | collapsedUnknown
  | shortcut
  | shortcutUnknown
  | autolink
  | email
deriving DecidableEq, Repr

/-- `pulldown_cmark::CodeBlockKind`: indented, or fenced with its info
string. -/
inductive CodeBlockKind where
  | indented
  | fenced (info : String)
deriving DecidableEq, Repr

/-- `pulldown_cmark::Tag` (start tags). -/
inductive Tag where
  | paragraph
  | heading
  | blockQuote
  | codeBlock (kind : CodeBlockKind)
  | htmlBlock
  | list
  | item
  | footnoteDefinition
  | table
  | tableHead
  | tableRow
  | tableCell
  | emphasis
  | strong
  | strikethrough
  | link (linkType : LinkType) (destUrl title id : String)
  | image (linkType : LinkType) (destUrl title id : String)
deriving DecidableEq, Repr

/-- `pulldown_cmark::TagEnd`. -/
inductive TagEnd where
  | paragraph
  | heading
  | blockQuote
  | codeBlock
  | htmlBlock
  | list
  | item
  | footnoteDefinition
  | table
  | tableHead
  | tableRow
  | tableCell
  | emphasis
  | strong
  | strikethrough
  | link
  | image
deriving DecidableEq, Repr

/-- `pulldown_cmark::Event`. -/
inductive Event where
  | startTag (t : Tag)
  | endTag (t : TagEnd)
  | text (s : String)
  | code (s : String)
  | html (s : String)
  | inlineHtml (s : String)
  | footnoteReference (s : String)
  | softBreak
  | hardBreak
  | rule
  | taskListMarker (checked : Bool)
deriving DecidableEq, Repr

/-- An event labelled with the 1-based line number where it starts, as
produced by `extract_events`. -/
abbrev IEvent := Nat × Event

/-- A directive recognized by `directives::find`. -/
inductive Directive where
  | skip
  | comment (text : String)
deriving DecidableEq, Repr

/-- `Group` from `lib.rs`: events to translate (with an associated
translator comment) or to skip. -/
inductive Group where
  | translate (events : List IEvent) (comment : String)
  | skip (events : List IEvent)
deriving DecidableEq, Repr

/-- The events of a group. -/
def Group.events : Group → List IEvent
  | .translate events _ => events
  | .skip events => events

/-- Concatenation of the events of all groups, in order. -/
def flatGroups (groups : List Group) : List IEvent :=
  groups.flatMap Group.events

/-- `GroupingContext` from `lib.rs`. -/
structure GroupingContext where
  skip_next_group : Bool := false
  comments : List String := []
deriving DecidableEq, Repr

/-- Take the pending comments out of the context (the
`std::mem::take(&mut ctx.comments).join(" ")` idiom). -/
def takeComments (ctx : GroupingContext) : String × GroupingContext :=
  (joinSep " " ctx.comments, { ctx with comments := [] })

/-! ## External collaborators as parameters -/

/-- Result of tokenizing one text event with `syntect`:
`parseFailed` models `ps.parse_line` returning `Err`; `parsed ranges
stackFailure` models a successful parse whose `ScopeRangeIterator`
yielded `ranges` — each `(start, stop, translate)` is a scope range
with the precomputed answer of
`stack.scopes.iter().any(is_translate_scope)` — with `stackFailure`
recording that `stack.apply` failed after the listed ranges were
processed. -/
inductive LineTok where
  | parseFailed
  | parsed (ranges : List (Nat × Nat × Bool)) (stackFailure : Bool)

/-- Abstraction of a `syntect` syntax plus its tokenizer: the state
models `ParseState`, and `parseLine` models `ps.parse_line` followed by
the scope-range iteration. -/
structure Tokenizer where
  S : Type
  init : S
  parseLine : S → String → S × LineTok

/-- A tokenizer is faithful to `syntect` when, on a successful parse
with no stack failure, the scope ranges partition the input line: the
concatenation of the sliced ranges is the whole string. -/
def Tokenizer.Valid (tk : Tokenizer) : Prop :=
  ∀ st s st' rs, tk.parseLine st s = (st', .parsed rs false) →
    strConcat (rs.map fun r => strSlice s r.1 r.2.1) = s

/-- Abstraction of the `pulldown_cmark_to_cmark` serializer with the
fixed style options of `reconstruct_markdown`: `run` models
`cmark_resume_with_options` (returning the rendered Markdown and the
new state), `simplify` models the record update that zeroes
`newlines_before_start` and clears `padding`, and `inCodeBlock` reads
the `is_in_code_block` field of the state. -/
structure Serializer where
  St : Type
  run : List Event → Option St → String × St
  simplify : St → St
  inCodeBlock : St → Bool

/-! ## Event extraction (`extract_events` in `lib.rs`) -/

/-- Expand a `[foo]` style link into `[foo][foo]` (the inner
`expand_shortcut_link` of `extract_events`). -/
def expand_shortcut_link : Tag → Tag
  | .link .shortcut destUrl title id => .link .reference destUrl title id
  | .image .shortcut destUrl title id => .image .reference destUrl title id
  | tag => tag

/-- The per-event transformation of the parser branch of
`extract_events`: compute the line number from the start offset
(`offsets.partition_point(|&o| o < range.start) + 1`), replace soft
breaks by a single space, and expand shortcut links. -/
def extractFromRaw (offsets : List Nat) (raw : List (Event × Nat)) : List IEvent :=
  raw.map fun p =>
    let lineno := offsets.countP (· < p.2) + 1
    let event :=
      match p.1 with
      | .softBreak => .text " "
      | .startTag (Tag.link lt d t i) => .startTag (expand_shortcut_link (.link lt d t i))
      | .startTag (Tag.image lt d t i) => .startTag (expand_shortcut_link (.image lt d t i))
      | e => e
    (lineno, event)

/-- `extract_events` from `lib.rs`, with the CommonMark parser
abstracted as `parse` (pairs of raw event and start offset of its byte
range).  If the serializer state says we are inside a code block, the
parser is not invoked: the text is split into lines (keeping the line
terminators) and each line becomes a `Text` event numbered `1..n`. -/
def extract_events (cm : Serializer) (parse : String → List (Event × Nat))
    (text : String) (state : Option cm.St) : List IEvent :=
  match state with
  | some st =>
    if cm.inCodeBlock st then
      ((splitInclusiveNl text.data).map String.mk).enum.map fun p => (p.1 + 1, Event.text p.2)
    else
      extractFromRaw (newlineOffsets text) (parse text)
  | none => extractFromRaw (newlineOffsets text) (parse text)

/-- `reconstruct_markdown` from `lib.rs`: run the serializer once with
the real state to advance it (output discarded), once with the
simplified state to produce the Markdown, then trim leading
newlines. -/
def reconstruct_markdown (cm : Serializer) (group : List IEvent)
    (state : Option cm.St) : String × cm.St :=
  let events := group.map (·.2)
  let new_state := (cm.run events state).2
  let simplified := state.map cm.simplify
  let markdown := (cm.run events simplified).1
  (trimLeadingNewlines markdown, new_state)

/-! ## The grouper (`group_events` and the code-block sub-parsing) -/

/-- `is_codeblock_group` from `lib.rs`: the events match
`[Start(CodeBlock(_)), .., End(CodeBlock)]`. -/
def is_codeblock_group : List IEvent → Bool
  | (_, .startTag (.codeBlock _)) :: rest =>
    match rest.getLast? with
    | some (_, .endTag .codeBlock) => true
    | _ => false
  | _ => false

/-- Whether an event is a `Text` event holding only spaces and tabs. -/
def isWsTextEvent : IEvent → Bool
  | (_, .text s) => isSpaceTab s
  | _ => false

/-- `extract_trailing_whitespaces` from `lib.rs`: pop trailing
whitespace-only `Text` events off the buffer; returns the remaining
buffer and the popped events in their original order. -/
def extract_trailing_whitespaces (buf : List IEvent) : List IEvent × List IEvent :=
  let r := buf.reverse
  ((r.dropWhile isWsTextEvent).reverse, (r.takeWhile isWsTextEvent).reverse)

/-- `heuristic_codeblock` from `lib.rs`: a code block is translated as
a whole iff its reconstructed Markdown contains a double quote or a
`//`; events not shaped like a code block are translated. -/
def heuristic_codeblock (cm : Serializer) (events : List IEvent)
    (ctx : GroupingContext) : List Group × GroupingContext :=
  let is_translate :=
    if is_codeblock_group events then
      let codeblock_text := (reconstruct_markdown cm events none).1
      containsChar codeblock_text '"' || containsSub codeblock_text "//"
    else true
  if is_translate then
    let (c, ctx) := takeComments ctx
    ([.translate events c], ctx)
  else
    ([.skip events], ctx)

/-- Flush the translate-events buffer: spill trailing whitespace into
its own Skip group, emit the rest as a Translate group consuming the
pending comments (the post-loop code of `parse_codeblock`, also used
before a Skip range). -/
def flushTranslateBuf (acc : List IEvent × List Group × GroupingContext) :
    List Group × GroupingContext :=
  let (buf, groups, ctx) := acc
  let (buf', ws) := extract_trailing_whitespaces buf
  let (groups, ctx) :=
    if ¬buf'.isEmpty then
      let (c, ctx) := takeComments ctx
      (groups ++ [.translate buf' c], ctx)
    else (groups, ctx)
  let groups := if ¬ws.isEmpty then groups ++ [.skip ws] else groups
  (groups, ctx)

/-- One scope range of the `ScopeRangeIterator` loop in
`parse_codeblock`: empty ranges are skipped; translate ranges (and
whitespace between translate ranges) accumulate in the buffer; other
ranges flush the buffer and become their own Skip group.  The line
number of a range is derived from the prefix of the text before it. -/
def rangeStep (text_line : Nat) (s : String)
    (acc : List IEvent × List Group × GroupingContext) (r : Nat × Nat × Bool) :
    List IEvent × List Group × GroupingContext :=
  let (buf, groups, ctx) := acc
  if r.2.1 ≤ r.1 then acc
  else
    let range_line :=
      if r.1 = 0 then text_line
      else text_line + (rustLines (strSlice s 0 r.1)).length - 1
    let textr := strSlice s r.1 r.2.1
    let is_whitespace := isSpaceTab textr
    let is_translate := r.2.2
    if is_translate || (is_whitespace && ¬buf.isEmpty) then
      (buf ++ [(range_line, .text textr)], groups, ctx)
    else
      let (groups, ctx) := flushTranslateBuf (buf, groups, ctx)
      ([], groups ++ [.skip [(range_line, .text textr)]], ctx)

/-- Processing of one event inside `parse_codeblock`: non-text events
become singleton Skip groups; a text event is tokenized, and on a parse
or stack failure it is emitted whole as a single Translate group
(discarding any sub-groups already built for it). -/
def pcStep (tk : Tokenizer) (ev : IEvent) (ps : tk.S) (ctx : GroupingContext) :
    List Group × tk.S × GroupingContext :=
  match ev with
  | (text_line, .text s) =>
    let (ps', res) := tk.parseLine ps s
    match res with
    | .parseFailed =>
      let (c, ctx) := takeComments ctx
      ([.translate [ev] c], ps', ctx)
    | .parsed rs fail =>
      let acc := rs.foldl (rangeStep text_line s) ([], [], ctx)
      let (groups, ctx) := flushTranslateBuf acc
      if fail then
        let (c, ctx) := takeComments ctx
        ([.translate [ev] c], ps', ctx)
      else
        (groups, ps', ctx)
  | _ => ([.skip [ev]], ps, ctx)

/-- The event loop of `parse_codeblock`, threading the tokenizer state
and the grouping context. -/
def pcGo (tk : Tokenizer) : List IEvent → tk.S → GroupingContext → List Group × GroupingContext
  | [], _, ctx => ([], ctx)
  | ev :: rest, ps, ctx =>
    let (gs, ps', ctx') := pcStep tk ev ps ctx
    let (gsr, ctx'') := pcGo tk rest ps' ctx'
    (gs ++ gsr, ctx'')

/-- The language detection of `parse_codeblock`: when the first event
opens a fenced code block, resolve the first comma-separated token of
its info string against the syntax set (`fs`). -/
def codeblockSyntax (fs : String → Option Tokenizer) (events : List IEvent) :
    Option Tokenizer :=
  match events.head? with
  | some (_, .startTag (.codeBlock (.fenced x))) =>
    fs (((splitChar ',' x.data).map String.mk).headD "")
  | _ => none

/-- `parse_codeblock` from `lib.rs`: with no resolved syntax fall back
to the heuristic, otherwise tokenize the block starting from the fresh
tokenizer state (`ParseState::new`). -/
def parse_codeblock (fs : String → Option Tokenizer) (cm : Serializer)
    (events : List IEvent) (ctx : GroupingContext) : List Group × GroupingContext :=
  match codeblockSyntax fs events with
  | none => heuristic_codeblock cm events ctx
  | some tk => pcGo tk events tk.init ctx

/-- The grouper's capturing state: `Translate(start)` or `Skip(start)`
with the index where the current group started. -/
inductive GState where
  | translate (start : Nat)
  | skipSt (start : Nat)
deriving DecidableEq, Repr

/-- The start index of the current group. -/
def GState.start : GState → Nat
  | .translate s => s
  | .skipSt s => s

/-- The slice `events[a..b]`. -/
def slice (events : List IEvent) (a b : Nat) : List IEvent :=
  (events.drop a).take (b - a)

/-- `State::into_groups` from `group_events`: a Translate capture with
a pending skip directive is reclassified as Skip (clearing the flag); a
code-block capture is sub-parsed; otherwise the capture is emitted
as-is. -/
def intoGroups (fs : String → Option Tokenizer) (cm : Serializer)
    (events : List IEvent) (state : GState) (idx : Nat) (ctx : GroupingContext) :
    List Group × GroupingContext :=
  match state with
  | .translate start =>
    if ctx.skip_next_group then
      ([.skip (slice events start idx)], { ctx with skip_next_group := false })
    else if is_codeblock_group (slice events start idx) then
      parse_codeblock fs cm (slice events start idx) ctx
    else
      let (c, ctx) := takeComments ctx
      ([.translate (slice events start idx) c], ctx)
  | .skipSt start => ([.skip (slice events start idx)], ctx)

/-- The event loop of `group_events`, processing `rest` (the events
from index `idx` on, with `events` the full stream). -/
def groupGo (fd : String → Option Directive) (fs : String → Option Tokenizer)
    (cm : Serializer) (events : List IEvent) :
    List IEvent → Nat → GState → GroupingContext → List Group
  | [], _, .translate start, _ => [.translate (events.drop start) ""]
  | [], _, .skipSt start, _ => [.skip (events.drop start)]
  | (_, e) :: rest, idx, state, ctx =>
    match e with
    | .startTag .paragraph | .startTag (.codeBlock _) =>
      let (gs, ctx) := intoGroups fs cm events state idx ctx
      gs ++ groupGo fd fs cm events rest (idx + 1) (.translate idx) ctx
    | .endTag .paragraph | .endTag .codeBlock =>
      let (gs, ctx) := intoGroups fs cm events state (idx + 1) ctx
      gs ++ groupGo fd fs cm events rest (idx + 1) (.skipSt (idx + 1)) ctx
    | .startTag .emphasis | .startTag .strong | .startTag .strikethrough
    | .startTag (.link ..) | .startTag (.image ..)
    | .endTag .emphasis | .endTag .strong | .endTag .strikethrough
    | .endTag .link | .endTag .image
    | .text _ | .code _ | .footnoteReference _ | .softBreak | .hardBreak =>
      match state with
      | .skipSt _ =>
        let (gs, ctx) := intoGroups fs cm events state idx ctx
        gs ++ groupGo fd fs cm events rest (idx + 1) (.translate idx) ctx
      | .translate _ => groupGo fd fs cm events rest (idx + 1) state ctx
    | .html s =>
      match fd s with
      | some .skip =>
        match state with
        | .translate _ =>
          let (gs, ctx) := intoGroups fs cm events state idx ctx
          gs ++ groupGo fd fs cm events rest (idx + 1) (.translate idx)
            { ctx with skip_next_group := true }
        | .skipSt _ =>
          groupGo fd fs cm events rest (idx + 1) state { ctx with skip_next_group := true }
      | some (.comment c) =>
        match state with
        | .translate _ =>
          let (gs, ctx) := intoGroups fs cm events state idx ctx
          gs ++ groupGo fd fs cm events rest (idx + 1) (.translate idx)
            { ctx with comments := ctx.comments ++ [c] }
        | .skipSt _ =>
          groupGo fd fs cm events rest (idx + 1) state { ctx with comments := ctx.comments ++ [c] }
      | none =>
        match state with
        | .translate _ =>
          let (gs, ctx) := intoGroups fs cm events state idx ctx
          gs ++ groupGo fd fs cm events rest (idx + 1) (.skipSt idx) ctx
        | .skipSt _ => groupGo fd fs cm events rest (idx + 1) state ctx
    | .inlineHtml s =>
      match fd s with
      | some .skip =>
        match state with
        | .translate _ =>
          let (gs, ctx) := intoGroups fs cm events state idx ctx
          gs ++ groupGo fd fs cm events rest (idx + 1) (.translate idx)
            { ctx with skip_next_group := true }
        | .skipSt _ =>
          groupGo fd fs cm events rest (idx + 1) state { ctx with skip_next_group := true }
      | some (.comment c) =>
        match state with
        | .translate _ =>
          let (gs, ctx) := intoGroups fs cm events state idx ctx
          gs ++ groupGo fd fs cm events rest (idx + 1) (.translate idx)
            { ctx with comments := ctx.comments ++ [c] }
        | .skipSt _ =>
          groupGo fd fs cm events rest (idx + 1) state { ctx with comments := ctx.comments ++ [c] }
      | none =>
        match state with
        | .skipSt _ =>
          let (gs, ctx) := intoGroups fs cm events state idx ctx
          gs ++ groupGo fd fs cm events rest (idx + 1) (.translate idx) ctx
        | .translate _ => groupGo fd fs cm events rest (idx + 1) state ctx
    | _ =>
      match state with
      | .translate _ =>
        let (gs, ctx) := intoGroups fs cm events state idx ctx
        gs ++ groupGo fd fs cm events rest (idx + 1) (.skipSt idx) ctx
      | .skipSt _ => groupGo fd fs cm events rest (idx + 1) state ctx

/-- `group_events` from `lib.rs`: partition an event stream into
Translate and Skip groups, starting in the Skip state with a default
context. -/
def group_events (fd : String → Option Directive) (fs : String → Option Tokenizer)
    (cm : Serializer) (events : List IEvent) : List Group :=
  groupGo fd fs cm events events 0 (.skipSt 0) {}

/-! ## Translation (`translate_events` in `lib.rs`, `translate` in
`gettext.rs`) -/

/-- If the events are wrapped in a paragraph, return the inner
events. -/
def paragraphInner : List IEvent → Option (List IEvent)
  | (_, .startTag .paragraph) :: rest =>
    match rest.getLast? with
    | some (_, .endTag .paragraph) => some rest.dropLast
    | _ => none
  | _ => none

/-- `trim_paragraph` from `lib.rs`: if `new_events` is wrapped in a
paragraph and `old_events` is not, remove the wrapper. -/
def trim_paragraph (new_events old_events : List IEvent) : List IEvent :=
  match paragraphInner new_events with
  | some inner => if (paragraphInner old_events).isSome then new_events else inner
  | none => new_events

/-- A `polib` message, as used by the pipeline: fields of a singular
message plus its fuzzy flag. -/
structure PoMessage where
  msgid : String := ""
  msgstr : String := ""
  source : String := ""
  comments : String := ""
  fuzzy : Bool := false
deriving DecidableEq, Repr

/-- `polib`'s `is_translated` for a singular message: the `msgstr` is
non-empty. -/
def PoMessage.isTranslated (m : PoMessage) : Bool :=
  m.msgstr ≠ ""

/-- `polib::metadata::CatalogMetadata`, restricted to the fields the
system reads and writes. -/
structure CatalogMetadata where
  project_id_version : String := ""
  language : String := ""
  pot_creation_date : String := ""
  mime_version : String := "1.0"
  content_type : String := "text/plain; charset=UTF-8"
  content_transfer_encoding : String := "8bit"
deriving DecidableEq, Repr

/-- A `polib` catalog: metadata plus the ordered message list. -/
structure Catalog where
  metadata : CatalogMetadata
  messages : List PoMessage
deriving DecidableEq, Repr

/-- `catalog.find_message(None, msgid, None)`: the first message with
the given `msgid`. -/
def Catalog.find_message (c : Catalog) (msgid : String) : Option PoMessage :=
  c.messages.find? fun m => m.msgid == msgid

/-- The group loop of `translate_events`: Translate groups are looked
up in the catalog (accepting only non-fuzzy translated entries) and the
translation's re-extracted events are spliced in after paragraph
trimming; Skip groups are copied through; the serializer state is
advanced over every group. -/
def translateGo (cm : Serializer) (parse : String → List (Event × Nat))
    (catalog : Catalog) : List Group → Option cm.St → List IEvent
  | [], _ => []
  | g :: gs, state =>
    match g with
    | .translate events _ =>
      let (msgid, new_state) := reconstruct_markdown cm events state
      let translated :=
        ((catalog.find_message msgid).filter fun m => ¬m.fuzzy && m.isTranslated).map (·.msgstr)
      match translated with
      | some msgstr =>
        trim_paragraph (extract_events cm parse msgstr state) events
          ++ translateGo cm parse catalog gs (some new_state)
      | none => events ++ translateGo cm parse catalog gs (some new_state)
    | .skip events =>
      events ++ translateGo cm parse catalog gs (some (reconstruct_markdown cm events state).2)

/-- `translate_events` from `lib.rs`. -/
def translate_events (fd : String → Option Directive) (fs : String → Option Tokenizer)
    (cm : Serializer) (parse : String → List (Event × Nat))
    (events : List IEvent) (catalog : Catalog) : List IEvent :=
  translateGo cm parse catalog (group_events fd fs cm events) none

/-- `translate` from `gettext.rs`: extract, translate, reconstruct. -/
def translate (fd : String → Option Directive) (fs : String → Option Tokenizer)
    (cm : Serializer) (parse : String → List (Event × Nat))
    (text : String) (catalog : Catalog) : String :=
  let events := extract_events cm parse text none
  let translated_events := translate_events fd fs cm parse events catalog
  (reconstruct_markdown cm translated_events none).1

/-! ## The normalizer (`normalize.rs`)

The message-extraction step (`SourceMap::extract_messages`, which runs
the full pipeline with broken-link repair and file access) is
abstracted as a parameter `extractF`; the `textwrap` line rewrapping of
`wrap_sources` is abstracted as `wrap`. -/

/-- The two fields a normalizer extraction can target. -/
inductive MessageField where
  | msgid
  | msgstr
deriving DecidableEq, Repr

/-- `parse_source` from `normalize.rs`: split a `path:lineno` token at
the first colon and parse the line number. -/
def parse_source (source : String) : Option (String × Nat) :=
  match source.splitOn ":" with
  | [] => none
  | [_] => none
  | p :: rest => ((joinSep ":" rest).toNat?).map fun n => (p, n)

/-- `compute_source` from `normalize.rs`: shift every `path:lineno`
token by `delta`, join with newlines, and rewrap.  (On a token that
fails to parse, the source pushes the whole `source` string — a quirk
kept here.) -/
def compute_source (wrap : String → String) (source : String) (delta : Nat) : String :=
  let new_source := (splitWhitespaceStr source).foldl
    (fun acc path_lineno =>
      let acc := if acc ≠ "" then acc ++ "\n" else acc
      match parse_source path_lineno with
      | some pl => acc ++ pl.1 ++ ":" ++ toString (pl.2 + delta)
      | none => acc ++ source)
    ""
  wrap new_source

/-- The per-entry body of `normalize`: extract messages from the
`msgid` and the `msgstr`, drop the entry when the `msgid` yields
nothing, compute the fuzzy flag, re-pair the two lists (joining surplus
translations onto the last msgid with blank lines, padding missing
translations with empty strings), and emit one message per pair. -/
def normalizeMessage (extractF : PoMessage → MessageField → List (Nat × String))
    (wrap : String → String) (message : PoMessage) : List PoMessage :=
  let new_msgids := extractF message .msgid
  if new_msgids.isEmpty then []
  else
    let new_msgstrs := extractF message .msgstr
    let fuzzy :=
      message.fuzzy || (message.isTranslated && new_msgids.length ≠ new_msgstrs.length)
    let new_msgstrs :=
      if new_msgids.length < new_msgstrs.length then
        let tail := joinSep "\n\n" ((new_msgstrs.drop (new_msgids.length - 1)).map (·.2))
        new_msgstrs.take (new_msgids.length - 1) ++ [(0, tail)]
      else if new_msgstrs.length < new_msgids.length then
        new_msgstrs ++ List.replicate (new_msgids.length - new_msgstrs.length) (0, "")
      else new_msgstrs
    (new_msgids.zip new_msgstrs).map fun p =>
      { msgid := p.1.2, msgstr := p.2.2,
        source := compute_source wrap message.source (p.1.1 - 1),
        comments := "", fuzzy := fuzzy }

/-- The merge phase of `normalize`: a new message whose `msgid` already
exists updates the existing entry (copying the translation when the
existing one is untranslated, preserving a fuzzy flag coming with the
copied translation, and concatenating sources with a newline);
otherwise it is appended. -/
def mergeStep : List PoMessage → PoMessage → List PoMessage
  | [], nm => [nm]
  | m :: rest, nm =>
    if m.msgid = nm.msgid then
      let m :=
        if ¬m.isTranslated && nm.isTranslated then
          { m with msgstr := nm.msgstr, fuzzy := m.fuzzy || nm.fuzzy }
        else m
      { m with source := m.source ++ "\n" ++ nm.source } :: rest
    else m :: mergeStep rest nm

/-- `normalize` from `normalize.rs`: normalize every entry, then merge
the results into a new catalog that reuses the input metadata. -/
def normalize (extractF : PoMessage → MessageField → List (Nat × String))
    (wrap : String → String) (catalog : Catalog) : Catalog :=
  let new_messages := catalog.messages.flatMap (normalizeMessage extractF wrap)
  { metadata := catalog.metadata,
    messages := new_messages.foldl mergeStep [] }

/-! ## The path allocator (`xgettext/paths.rs`) and `build_source`
(`xgettext.rs`) -/

/-- `slug` from `paths.rs`: lowercase, rewrite `c++` to `cpp`, keep
ASCII alphanumerics and hyphens per whitespace-separated word, join
words with hyphens, defaulting to `null`. -/
def slug (title : String) : String :=
  let title := String.mk (replaceChars "c++".data "cpp".data (lowerStr title).data)
  let t := joinSep "-"
    (((splitWhitespaceStr title).map fun word =>
        String.mk (word.data.filter fun ch => ch = '-' || ch.isAlphanum)).filter (· ≠ ""))
  if t = "" then "null" else t

/-- `UniquePathBuilder` from `paths.rs`, with the path as a segment
list and the frequency table as an association list (insertion
ordered). -/
structure UniquePathBuilder where
  current_path : List String
  current_depth : Nat
  max_depth : Nat
  frequency_map : List (List String × Nat)
deriving DecidableEq, Repr

/-- Association-list lookup for the frequency table. -/
def lookupFreq : List (List String × Nat) → List String → Option Nat
  | [], _ => none
  | kv :: rest, key => if kv.1 = key then some kv.2 else lookupFreq rest key

/-- `entry(path).and_modify(|cnt| *cnt += 1).or_insert(0)`: increment
the count if present, otherwise insert `0`. -/
def bumpFreq : List (List String × Nat) → List String → List (List String × Nat)
  | [], key => [(key, 0)]
  | kv :: rest, key =>
    if kv.1 = key then (kv.1, kv.2 + 1) :: rest else kv :: bumpFreq rest key

/-- `UniquePathBuilder::new`. -/
def UniquePathBuilder.new (max_depth : Nat) : UniquePathBuilder :=
  ⟨[], 0, max_depth, []⟩

/-- `format_path_with_counter`: append `-cnt` to the basename when the
current path has been produced before with a positive count.  (The
`none` fallback for an empty path models the fact that counted paths
are never empty, where the source would call `file_name().unwrap()`.) -/
def UniquePathBuilder.format_path_with_counter (b : UniquePathBuilder) : List String :=
  match lookupFreq b.frequency_map b.current_path with
  | none => b.current_path
  | some 0 => b.current_path
  | some cnt =>
    match b.current_path.getLast? with
    | some fileName => b.current_path.dropLast ++ [fileName ++ "-" ++ toString cnt]
    | none => b.current_path

/-- `UniquePathBuilder::get`: the disambiguated current path with a
`.pot` extension, or `messages.pot` at depth 0.  Slug segments never
contain a dot, so `with_extension` appends the extension. -/
def UniquePathBuilder.get (b : UniquePathBuilder) : String :=
  if b.max_depth = 0 || b.current_depth = 0 then "messages" ++ ".pot"
  else joinSep "/" b.format_path_with_counter ++ ".pot"

/-- `UniquePathBuilder::push`. -/
def UniquePathBuilder.push (b : UniquePathBuilder) (s : String) : UniquePathBuilder :=
  let d := b.current_depth + 1
  if b.max_depth < d then { b with current_depth := d }
  else
    let p := b.format_path_with_counter ++ [slug s]
    { current_path := p, current_depth := d, max_depth := b.max_depth,
      frequency_map := bumpFreq b.frequency_map p }

/-- `UniquePathBuilder::pop`. -/
def UniquePathBuilder.pop (b : UniquePathBuilder) : UniquePathBuilder :=
  if b.current_depth = 0 then b
  else
    let path :=
      if b.current_depth ≤ b.max_depth then b.current_path.dropLast else b.current_path
    { b with current_path := path, current_depth := b.current_depth - 1 }

/-- `build_source` from `xgettext.rs`: format a `path:lineno` source
line under the granularity knob. -/
def build_source (path : String) (lineno granularity : Nat) : String :=
  match granularity with
  | 0 => path
  | 1 => path ++ ":" ++ toString lineno
  | _ => path ++ ":" ++ toString (max 1 (lineno - lineno % granularity))

/-! ## Coalescing of text events

The code-block sub-parser may split one `Text` event into several
consecutive `Text` events carrying the same characters.  Two event
lists are "the same stream" when they agree after merging adjacent
`Text` events and dropping empty ones; `coalesce` computes that normal
form. -/

/-- Prepend an event onto a coalesced list: a text event merges with a
text head, and empty text disappears. -/
def consEvent : Event → List Event → List Event
  | .text s, .text t :: rest => if s ++ t = "" then rest else .text (s ++ t) :: rest
  | .text s, out => if s = "" then out else .text s :: out
  | e, out => e :: out

/-- Merge adjacent `Text` events and drop empty ones. -/
def coalesce (l : List Event) : List Event :=
  l.foldr consEvent []

/-- `coalesce` on events with line numbers: line numbers are dropped
first (the sub-parser recomputes them for split events). -/
def coalesceIE (l : List IEvent) : List Event :=
  coalesce (l.map (·.2))

/-- Normal form: no empty text event and no two adjacent text
events. -/
def headNotText : List Event → Bool
  | .text _ :: _ => false
  | _ => true

/-- Whether the list is in the normal form `coalesce` produces. -/
def normd : List Event → Bool
  | [] => true
  | .text s :: rest => decide (s ≠ "") && headNotText rest && normd rest
  | _ :: rest => normd rest

theorem strAppend_assoc (a b c : String) : a ++ b ++ c = a ++ (b ++ c) := by
  apply String.ext
  simp [String.data_append]

theorem strAppend_empty (a : String) : a ++ "" = a := by
  apply String.ext
  simp [String.data_append]

theorem strEmpty_append (a : String) : "" ++ a = a := by
  apply String.ext
  simp [String.data_append]

theorem str_eq_empty_iff {s : String} : s = "" ↔ s.data = [] := by
  constructor
  · intro h
    rw [h]
  · intro h
    apply String.ext
    simpa using h

theorem strAppend_eq_empty {s t : String} : s ++ t = "" ↔ s = "" ∧ t = "" := by
  rw [str_eq_empty_iff, @str_eq_empty_iff s, @str_eq_empty_iff t,
    String.data_append, List.append_eq_nil]

/-- Pushing a text event in front of a list that does not start with a
text event. -/
theorem consEvent_text_of_headNotText {out : List Event}
    (h : headNotText out = true) (s : String) :
    consEvent (.text s) out = if s = "" then out else .text s :: out := by
  cases out with
  | nil => rfl
  | cons hd rest => cases hd <;> simp_all [consEvent, headNotText]

theorem normd_consEvent {l : List Event} (h : normd l = true) (e : Event) :
    normd (consEvent e l) = true := by
  cases e with
  | text s =>
    cases l with
    | nil =>
      by_cases hs : s = "" <;> simp [consEvent, hs, normd, headNotText]
    | cons hd rest =>
      cases hd with
      | text t =>
        simp only [normd, Bool.and_eq_true, decide_eq_true_eq] at h
        by_cases hst : s ++ t = ""
        · simp [consEvent, hst, h.2]
        · simp [consEvent, hst, normd, h.1.2, h.2, hst]
      | startTag t' =>
        by_cases hs : s = "" <;> simp_all [consEvent, normd, headNotText]
      | endTag t' =>
        by_cases hs : s = "" <;> simp_all [consEvent, normd, headNotText]
      | code u =>
        by_cases hs : s = "" <;> simp_all [consEvent, normd, headNotText]
      | html u =>
        by_cases hs : s = "" <;> simp_all [consEvent, normd, headNotText]
      | inlineHtml u =>
        by_cases hs : s = "" <;> simp_all [consEvent, normd, headNotText]
      | footnoteReference u =>
        by_cases hs : s = "" <;> simp_all [consEvent, normd, headNotText]
      | softBreak =>
        by_cases hs : s = "" <;> simp_all [consEvent, normd, headNotText]
      | hardBreak =>
        by_cases hs : s = "" <;> simp_all [consEvent, normd, headNotText]
      | rule =>
        by_cases hs : s = "" <;> simp_all [consEvent, normd, headNotText]
      | taskListMarker b =>
        by_cases hs : s = "" <;> simp_all [consEvent, normd, headNotText]
  | startTag t => cases l with
    | nil => simp [consEvent, normd, headNotText]
    | cons hd rest => cases hd <;> simp_all [consEvent, normd, headNotText]
  | endTag t => cases l with
    | nil => simp [consEvent, normd, headNotText]
    | cons hd rest => cases hd <;> simp_all [consEvent, normd, headNotText]
  | code u => cases l with
    | nil => simp [consEvent, normd, headNotText]
    | cons hd rest => cases hd <;> simp_all [consEvent, normd, headNotText]
  | html u => cases l with
    | nil => simp [consEvent, normd, headNotText]
    | cons hd rest => cases hd <;> simp_all [consEvent, normd, headNotText]
  | inlineHtml u => cases l with
    | nil => simp [consEvent, normd, headNotText]
    | cons hd rest => cases hd <;> simp_all [consEvent, normd, headNotText]
  | footnoteReference u => cases l with
    | nil => simp [consEvent, normd, headNotText]
    | cons hd rest => cases hd <;> simp_all [consEvent, normd, headNotText]
  | softBreak => cases l with
    | nil => simp [consEvent, normd, headNotText]
    | cons hd rest => cases hd <;> simp_all [consEvent, normd, headNotText]
  | hardBreak => cases l with
    | nil => simp [consEvent, normd, headNotText]
    | cons hd rest => cases hd <;> simp_all [consEvent, normd, headNotText]
  | rule => cases l with
    | nil => simp [consEvent, normd, headNotText]
    | cons hd rest => cases hd <;> simp_all [consEvent, normd, headNotText]
  | taskListMarker b => cases l with
    | nil => simp [consEvent, normd, headNotText]
    | cons hd rest => cases hd <;> simp_all [consEvent, normd, headNotText]

theorem normd_foldr {base : List Event} (h : normd base = true) (l : List Event) :
    normd (l.foldr consEvent base) = true := by
  induction l with
  | nil => exact h
  | cons e rest ih => exact normd_consEvent ih e

theorem normd_coalesce (l : List Event) : normd (coalesce l) = true :=
  @normd_foldr [] (by simp [normd]) l

theorem consEvent_empty_text {l : List Event} (h : normd l = true) :
    consEvent (.text "") l = l := by
  cases l with
  | nil => rfl
  | cons hd rest =>
    cases hd with
    | text t =>
      simp only [normd, Bool.and_eq_true, decide_eq_true_eq] at h
      simp [consEvent, strEmpty_append, h.1.1]
    | startTag t' => simp [consEvent]
    | endTag t' => simp [consEvent]
    | code u => simp [consEvent]
    | html u => simp [consEvent]
    | inlineHtml u => simp [consEvent]
    | footnoteReference u => simp [consEvent]
    | softBreak => simp [consEvent]
    | hardBreak => simp [consEvent]
    | rule => simp [consEvent]
    | taskListMarker b => simp [consEvent]

theorem consEvent_text_text_of_headNotText {o : List Event}
    (ho : headNotText o = true) (s t : String) :
    consEvent (.text s) (consEvent (.text t) o) =
      consEvent (.text (s ++ t)) o := by
  rw [consEvent_text_of_headNotText ho t]
  by_cases hto : t = ""
  · subst hto
    rw [if_pos rfl, strAppend_empty]
  · rw [if_neg hto]
    have hst : ¬s ++ t = "" := fun hc => hto (strAppend_eq_empty.mp hc).2
    rw [consEvent_text_of_headNotText ho (s ++ t), if_neg hst]
    simp [consEvent, hst]

theorem consEvent_text_text {out : List Event} (h : normd out = true) (s t : String) :
    consEvent (.text s) (consEvent (.text t) out) =
      consEvent (.text (s ++ t)) out := by
  match out, h with
  | [], _ => exact consEvent_text_text_of_headNotText (by simp [headNotText]) s t
  | .text u :: rest, h =>
    simp only [normd, Bool.and_eq_true, decide_eq_true_eq] at h
    have hu : u ≠ "" := h.1.1
    have htu : ¬t ++ u = "" := fun hc => hu (strAppend_eq_empty.mp hc).2
    have hstu : ¬s ++ (t ++ u) = "" := fun hc =>
      hu (strAppend_eq_empty.mp (strAppend_eq_empty.mp hc).2).2
    have hstu' : ¬s ++ t ++ u = "" := fun hc => hu (strAppend_eq_empty.mp hc).2
    simp only [consEvent, if_neg htu, if_neg hstu, if_neg hstu', strAppend_assoc]
  | .startTag t' :: rest, _ => exact consEvent_text_text_of_headNotText (by simp [headNotText]) s t
  | .endTag t' :: rest, _ => exact consEvent_text_text_of_headNotText (by simp [headNotText]) s t
  | .code u :: rest, _ => exact consEvent_text_text_of_headNotText (by simp [headNotText]) s t
  | .html u :: rest, _ => exact consEvent_text_text_of_headNotText (by simp [headNotText]) s t
  | .inlineHtml u :: rest, _ => exact consEvent_text_text_of_headNotText (by simp [headNotText]) s t
  | .footnoteReference u :: rest, _ => exact consEvent_text_text_of_headNotText (by simp [headNotText]) s t
  | .softBreak :: rest, _ => exact consEvent_text_text_of_headNotText (by simp [headNotText]) s t
  | .hardBreak :: rest, _ => exact consEvent_text_text_of_headNotText (by simp [headNotText]) s t
  | .rule :: rest, _ => exact consEvent_text_text_of_headNotText (by simp [headNotText]) s t
  | .taskListMarker b :: rest, _ => exact consEvent_text_text_of_headNotText (by simp [headNotText]) s t

theorem foldr_consEvent_consEvent {base l : List Event} (hb : normd base = true)
    (hl : normd l = true) (e : Event) :
    (consEvent e l).foldr consEvent base = consEvent e (l.foldr consEvent base) := by
  cases e with
  | text s =>
    match l, hl with
    | [], _ =>
      by_cases hs : s = ""
      · subst hs
        simp only [consEvent, if_pos rfl, List.foldr_nil]
        exact (consEvent_empty_text hb).symm
      · simp [consEvent, hs]
    | .text t :: rest, hl =>
      simp only [normd, Bool.and_eq_true, decide_eq_true_eq] at hl
      have ht : t ≠ "" := hl.1.1
      have hst : ¬s ++ t = "" := fun hc => ht (strAppend_eq_empty.mp hc).2
      simp only [consEvent, if_neg hst, List.foldr_cons]
      exact (consEvent_text_text (normd_foldr hb rest) s t).symm
    | .startTag t' :: rest, hl =>
      rw [consEvent_text_of_headNotText (by simp [headNotText]) s]
      by_cases hs : s = ""
      · subst hs
        rw [if_pos rfl]
        exact (consEvent_empty_text (normd_foldr hb _)).symm
      · rw [if_neg hs]
        rfl
    | .endTag t' :: rest, hl =>
      rw [consEvent_text_of_headNotText (by simp [headNotText]) s]
      by_cases hs : s = ""
      · subst hs
        rw [if_pos rfl]
        exact (consEvent_empty_text (normd_foldr hb _)).symm
      · rw [if_neg hs]
        rfl
    | .code u :: rest, hl =>
      rw [consEvent_text_of_headNotText (by simp [headNotText]) s]
      by_cases hs : s = ""
      · subst hs
        rw [if_pos rfl]
        exact (consEvent_empty_text (normd_foldr hb _)).symm
      · rw [if_neg hs]
        rfl
    | .html u :: rest, hl =>
      rw [consEvent_text_of_headNotText (by simp [headNotText]) s]
      by_cases hs : s = ""
      · subst hs
        rw [if_pos rfl]
        exact (consEvent_empty_text (normd_foldr hb _)).symm
      · rw [if_neg hs]
        rfl
    | .inlineHtml u :: rest, hl =>
      rw [consEvent_text_of_headNotText (by simp [headNotText]) s]
      by_cases hs : s = ""
      · subst hs
        rw [if_pos rfl]
        exact (consEvent_empty_text (normd_foldr hb _)).symm
      · rw [if_neg hs]
        rfl
    | .footnoteReference u :: rest, hl =>
      rw [consEvent_text_of_headNotText (by simp [headNotText]) s]
      by_cases hs : s = ""
      · subst hs
        rw [if_pos rfl]
        exact (consEvent_empty_text (normd_foldr hb _)).symm
      · rw [if_neg hs]
        rfl
    | .softBreak :: rest, hl =>
      rw [consEvent_text_of_headNotText (by simp [headNotText]) s]
      by_cases hs : s = ""
      · subst hs
        rw [if_pos rfl]
        exact (consEvent_empty_text (normd_foldr hb _)).symm
      · rw [if_neg hs]
        rfl
    | .hardBreak :: rest, hl =>
      rw [consEvent_text_of_headNotText (by simp [headNotText]) s]
      by_cases hs : s = ""
      · subst hs
        rw [if_pos rfl]
        exact (consEvent_empty_text (normd_foldr hb _)).symm
      · rw [if_neg hs]
        rfl
    | .rule :: rest, hl =>
      rw [consEvent_text_of_headNotText (by simp [headNotText]) s]
      by_cases hs : s = ""
      · subst hs
        rw [if_pos rfl]
        exact (consEvent_empty_text (normd_foldr hb _)).symm
      · rw [if_neg hs]
        rfl
    | .taskListMarker b :: rest, hl =>
      rw [consEvent_text_of_headNotText (by simp [headNotText]) s]
      by_cases hs : s = ""
      · subst hs
        rw [if_pos rfl]
        exact (consEvent_empty_text (normd_foldr hb _)).symm
      · rw [if_neg hs]
        rfl
  | startTag t => simp [consEvent]
  | endTag t => simp [consEvent]
  | code u => simp [consEvent]
  | html u => simp [consEvent]
  | inlineHtml u => simp [consEvent]
  | footnoteReference u => simp [consEvent]
  | softBreak => simp [consEvent]
  | hardBreak => simp [consEvent]
  | rule => simp [consEvent]
  | taskListMarker b => simp [consEvent]

theorem foldr_coalesce {base : List Event} (hb : normd base = true) (l : List Event) :
    l.foldr consEvent base = (coalesce l).foldr consEvent base := by
  induction l with
  | nil => rfl
  | cons e l' ih =>
    calc (e :: l').foldr consEvent base
        = consEvent e (l'.foldr consEvent base) := rfl
      _ = consEvent e ((coalesce l').foldr consEvent base) := by rw [ih]
      _ = (consEvent e (coalesce l')).foldr consEvent base :=
          (foldr_consEvent_consEvent hb (normd_coalesce l') e).symm
      _ = (coalesce (e :: l')).foldr consEvent base := rfl

theorem coalesce_append (a b : List Event) :
    coalesce (a ++ b) = (coalesce a).foldr consEvent (coalesce b) := by
  calc coalesce (a ++ b)
      = a.foldr consEvent (coalesce b) := List.foldr_append ..
    _ = (coalesce a).foldr consEvent (coalesce b) :=
        foldr_coalesce (normd_coalesce b) a

theorem coalesce_append_congr {a a' b b' : List Event}
    (ha : coalesce a = coalesce a') (hb : coalesce b = coalesce b') :
    coalesce (a ++ b) = coalesce (a' ++ b') := by
  rw [coalesce_append, coalesce_append, ha, hb]

theorem coalesceIE_append (a b : List IEvent) :
    coalesceIE (a ++ b) = (coalesceIE a).foldr consEvent (coalesceIE b) := by
  unfold coalesceIE
  rw [List.map_append, coalesce_append]

theorem coalesceIE_append_congr {a a' b b' : List IEvent}
    (ha : coalesceIE a = coalesceIE a') (hb : coalesceIE b = coalesceIE b') :
    coalesceIE (a ++ b) = coalesceIE (a' ++ b') := by
  rw [coalesceIE_append, coalesceIE_append, ha, hb]

theorem strConcat_foldl (l : List String) (a : String) :
    l.foldl (· ++ ·) a = a ++ strConcat l := by
  induction l generalizing a with
  | nil => simp [strConcat, strAppend_empty]
  | cons s l' ih =>
    simp only [strConcat, List.foldl_cons]
    rw [ih, ih ("" ++ s), strEmpty_append, strAppend_assoc]

theorem strConcat_cons (s : String) (l : List String) :
    strConcat (s :: l) = s ++ strConcat l := by
  simp only [strConcat, List.foldl_cons]
  rw [strConcat_foldl, strEmpty_append]
  rfl

/-- Splitting a text into consecutive pieces does not change its
coalesced form. -/
theorem coalesce_texts (ts : List String) :
    coalesce (ts.map .text) = coalesce [.text (strConcat ts)] := by
  induction ts with
  | nil => rfl
  | cons s ts' ih =>
    calc coalesce (Event.text s :: ts'.map .text)
        = consEvent (.text s) (coalesce (ts'.map .text)) := rfl
      _ = consEvent (.text s) (coalesce [.text (strConcat ts')]) := by rw [ih]
      _ = consEvent (.text s) (consEvent (.text (strConcat ts')) []) := rfl
      _ = consEvent (.text (s ++ strConcat ts')) [] :=
          consEvent_text_text (by simp [normd]) s (strConcat ts')
      _ = coalesce [.text (strConcat (s :: ts'))] := by rw [strConcat_cons]; rfl

theorem strSlice_of_stop_le {s : String} {a b : Nat} (h : b ≤ a) :
    strSlice s a b = "" := by
  unfold strSlice
  have hz : b - a = 0 := Nat.sub_eq_zero_of_le h
  rw [hz]
  rfl

/-! ## The partition property of the grouper -/

theorem flatGroups_append (a b : List Group) :
    flatGroups (a ++ b) = flatGroups a ++ flatGroups b := by
  simp [flatGroups]

theorem etw_append (buf : List IEvent) :
    (extract_trailing_whitespaces buf).1 ++ (extract_trailing_whitespaces buf).2 = buf := by
  unfold extract_trailing_whitespaces
  rw [← List.reverse_append, List.takeWhile_append_dropWhile, List.reverse_reverse]

theorem flushTranslateBuf_flat (buf : List IEvent) (groups : List Group)
    (ctx : GroupingContext) :
    flatGroups (flushTranslateBuf (buf, groups, ctx)).1 = flatGroups groups ++ buf := by
  unfold flushTranslateBuf
  dsimp only
  rcases hetw : extract_trailing_whitespaces buf with ⟨buf', ws⟩
  have hb2 : buf' ++ ws = buf := by
    have h := etw_append buf
    rw [hetw] at h
    exact h
  by_cases h1 : buf'.isEmpty
  · have hb' : buf' = [] := List.isEmpty_iff.mp h1
    by_cases h2 : ws.isEmpty
    · have hw : ws = [] := List.isEmpty_iff.mp h2
      subst hb' hw
      simp at hb2
      simp [← hb2]
    · subst hb'
      simp at hb2
      simp [h2, ← hb2, flatGroups_append, flatGroups, Group.events]
  · by_cases h2 : ws.isEmpty
    · have hw : ws = [] := List.isEmpty_iff.mp h2
      subst hw
      simp at hb2
      simp [h1, ← hb2, flatGroups_append, flatGroups, Group.events]
    · simp [h1, h2, ← hb2, flatGroups_append, flatGroups, Group.events]

/-- The events emitted for one scope range: nothing for an empty
range, otherwise one `Text` sub-event with the computed line number. -/
def pieceOf (text_line : Nat) (s : String) (r : Nat × Nat × Bool) : List IEvent :=
  if r.2.1 ≤ r.1 then []
  else
    [(if r.1 = 0 then text_line else text_line + (rustLines (strSlice s 0 r.1)).length - 1,
      Event.text (strSlice s r.1 r.2.1))]

theorem rangeStep_flat (tl : Nat) (s : String)
    (acc : List IEvent × List Group × GroupingContext) (r : Nat × Nat × Bool) :
    flatGroups (rangeStep tl s acc r).2.1 ++ (rangeStep tl s acc r).1
      = flatGroups acc.2.1 ++ acc.1 ++ pieceOf tl s r := by
  rcases acc with ⟨buf, groups, ctx⟩
  unfold rangeStep pieceOf
  dsimp only
  by_cases hr : r.2.1 ≤ r.1
  · simp [hr]
  · rw [if_neg hr, if_neg hr]
    by_cases htr : (r.2.2 || (isSpaceTab (strSlice s r.1 r.2.1) && ¬buf.isEmpty)) = true
    · rw [if_pos htr]
      simp [List.append_assoc]
    · rw [if_neg htr]
      rcases hfl : flushTranslateBuf (buf, groups, ctx) with ⟨g', c'⟩
      have hflat := flushTranslateBuf_flat buf groups ctx
      rw [hfl] at hflat
      simp only [hfl]
      dsimp only at hflat ⊢
      rw [flatGroups_append, hflat]
      simp [flatGroups, Group.events, List.append_assoc]

theorem foldl_rangeStep_flat (tl : Nat) (s : String) (rs : List (Nat × Nat × Bool)) :
    ∀ acc : List IEvent × List Group × GroupingContext,
    flatGroups (rs.foldl (rangeStep tl s) acc).2.1 ++ (rs.foldl (rangeStep tl s) acc).1
      = flatGroups acc.2.1 ++ acc.1 ++ rs.flatMap (pieceOf tl s) := by
  induction rs with
  | nil => intro acc; simp
  | cons r rs' ih =>
    intro acc
    rw [List.foldl_cons, ih (rangeStep tl s acc r), rangeStep_flat, List.flatMap_cons]
    simp [List.append_assoc]

theorem coalesce_pieces_aux (tl : Nat) (s : String) (rs : List (Nat × Nat × Bool)) :
    coalesce ((rs.flatMap (pieceOf tl s)).map (·.2))
      = coalesce ((rs.map fun r => strSlice s r.1 r.2.1).map Event.text) := by
  induction rs with
  | nil => rfl
  | cons r rs' ih =>
    rw [List.flatMap_cons, List.map_append, List.map_cons, List.map_cons]
    by_cases hr : r.2.1 ≤ r.1
    · have h1 : pieceOf tl s r = ([] : List IEvent) := by
        unfold pieceOf
        rw [if_pos hr]
      rw [h1, strSlice_of_stop_le hr]
      simp only [List.map_nil, List.nil_append]
      rw [ih]
      exact (consEvent_empty_text (normd_coalesce _)).symm
    · have h1 : pieceOf tl s r =
          [(if r.1 = 0 then tl else tl + (rustLines (strSlice s 0 r.1)).length - 1,
            Event.text (strSlice s r.1 r.2.1))] := by
        unfold pieceOf
        rw [if_neg hr]
      rw [h1]
      simp only [List.map_cons, List.map_nil, List.singleton_append]
      exact congrArg (consEvent (Event.text (strSlice s r.1 r.2.1))) ih

theorem coalesce_pieces (tl : Nat) (s : String) (rs : List (Nat × Nat × Bool))
    (hcov : strConcat (rs.map fun r => strSlice s r.1 r.2.1) = s) :
    coalesceIE (rs.flatMap (pieceOf tl s)) = coalesceIE [(tl, Event.text s)] := by
  unfold coalesceIE
  rw [coalesce_pieces_aux, coalesce_texts]
  rw [show strConcat (List.map (fun r => strSlice s r.1 r.2.1) rs) = s from hcov]
  rfl

theorem pcStep_flat {tk : Tokenizer} (htk : tk.Valid) (ev : IEvent) (ps : tk.S)
    (ctx : GroupingContext) :
    coalesceIE (flatGroups (pcStep tk ev ps ctx).1) = coalesceIE [ev] := by
  rcases ev with ⟨tl, e⟩
  cases e with
  | text s =>
    unfold pcStep
    dsimp only
    rcases hpl : tk.parseLine ps s with ⟨ps', res⟩
    simp only [hpl]
    cases res with
    | parseFailed => simp [flatGroups, Group.events]
    | parsed rs fail =>
      cases fail with
      | true => simp [flatGroups, Group.events]
      | false =>
        have hcov := htk ps s ps' rs hpl
        dsimp only
        rcases hacc : rs.foldl (rangeStep tl s) ([], [], ctx) with ⟨buf₁, groups₁, ctx₁⟩
        have hfold := foldl_rangeStep_flat tl s rs ([], [], ctx)
        rw [hacc] at hfold
        simp only [flatGroups, List.flatMap_nil, List.nil_append] at hfold
        rcases hfl : flushTranslateBuf (buf₁, groups₁, ctx₁) with ⟨g₂, c₂⟩
        have hflat := flushTranslateBuf_flat buf₁ groups₁ ctx₁
        rw [hfl] at hflat
        have hflat' : flatGroups g₂ = flatGroups groups₁ ++ buf₁ := hflat
        simp only [Bool.false_eq_true, if_false]
        rw [hflat']
        show coalesceIE (groups₁.flatMap Group.events ++ buf₁) = _
        rw [hfold]
        exact coalesce_pieces tl s rs hcov
  | startTag t => simp [pcStep, flatGroups, Group.events]
  | endTag t => simp [pcStep, flatGroups, Group.events]
  | code u => simp [pcStep, flatGroups, Group.events]
  | html u => simp [pcStep, flatGroups, Group.events]
  | inlineHtml u => simp [pcStep, flatGroups, Group.events]
  | footnoteReference u => simp [pcStep, flatGroups, Group.events]
  | softBreak => simp [pcStep, flatGroups, Group.events]
  | hardBreak => simp [pcStep, flatGroups, Group.events]
  | rule => simp [pcStep, flatGroups, Group.events]
  | taskListMarker b => simp [pcStep, flatGroups, Group.events]

theorem pcGo_flat {tk : Tokenizer} (htk : tk.Valid) :
    ∀ (evs : List IEvent) (ps : tk.S) (ctx : GroupingContext),
    coalesceIE (flatGroups (pcGo tk evs ps ctx).1) = coalesceIE evs := by
  intro evs
  induction evs with
  | nil => intro ps ctx; rfl
  | cons ev rest ih =>
    intro ps ctx
    rcases hstep : pcStep tk ev ps ctx with ⟨gs, ps', ctx'⟩
    rcases hgo : pcGo tk rest ps' ctx' with ⟨gsr, ctx''⟩
    have h1 := pcStep_flat htk ev ps ctx
    rw [hstep] at h1
    have h2 := ih ps' ctx'
    rw [hgo] at h2
    show coalesceIE (flatGroups (pcGo tk (ev :: rest) ps ctx).1) = _
    simp only [pcGo, hstep, hgo]
    rw [flatGroups_append]
    have h3 := coalesceIE_append_congr h1 h2
    simpa using h3

theorem heuristic_codeblock_flat (cm : Serializer) (events : List IEvent)
    (ctx : GroupingContext) :
    flatGroups (heuristic_codeblock cm events ctx).1 = events := by
  unfold heuristic_codeblock
  dsimp only
  split
  · split <;> simp [flatGroups, Group.events]
  · simp [flatGroups, Group.events]

theorem codeblockSyntax_valid {fs : String → Option Tokenizer} {events : List IEvent}
    {tk : Tokenizer} (hfs : ∀ t tk', fs t = some tk' → tk'.Valid)
    (h : codeblockSyntax fs events = some tk) : tk.Valid := by
  unfold codeblockSyntax at h
  split at h
  · exact hfs _ _ h
  · exact absurd h (by simp)

theorem parse_codeblock_flat {fs : String → Option Tokenizer} {cm : Serializer}
    (hfs : ∀ t tk, fs t = some tk → tk.Valid) (events : List IEvent)
    (ctx : GroupingContext) :
    coalesceIE (flatGroups (parse_codeblock fs cm events ctx).1) = coalesceIE events := by
  unfold parse_codeblock
  cases hsyn : codeblockSyntax fs events with
  | none =>
    rw [heuristic_codeblock_flat]
  | some tk =>
    exact pcGo_flat (codeblockSyntax_valid hfs hsyn) events tk.init ctx

theorem slice_self (events : List IEvent) (a : Nat) : slice events a a = [] := by
  simp [slice]

theorem drop_succ_of_drop_cons {events rest' : List IEvent} {cur : IEvent} {idx : Nat}
    (h : events.drop idx = cur :: rest') : events.drop (idx + 1) = rest' := by
  have h1 : events.drop (idx + 1) = (events.drop idx).drop 1 := by
    rw [List.drop_drop]
  rw [h1, h]
  rfl

theorem getElem?_of_drop_cons {events rest' : List IEvent} {cur : IEvent} {idx : Nat}
    (h : events.drop idx = cur :: rest') : events[idx]? = some cur := by
  have h1 : events[idx]? = (events.drop idx)[0]? := by
    rw [List.getElem?_drop, Nat.add_zero]
  rw [h1, h]
  simp

theorem slice_extend {events rest' : List IEvent} {cur : IEvent} {idx start : Nat}
    (hle : start ≤ idx) (h : events.drop idx = cur :: rest') :
    slice events start (idx + 1) = slice events start idx ++ [cur] := by
  unfold slice
  have hk : idx + 1 - start = (idx - start) + 1 := by omega
  rw [hk, List.take_succ]
  have h2 : (events.drop start)[idx - start]? = some cur := by
    rw [List.getElem?_drop]
    have : start + (idx - start) = idx := by omega
    rw [this]
    exact getElem?_of_drop_cons h
  rw [h2]
  rfl

theorem slice_of_drop_nil {events : List IEvent} {idx start : Nat}
    (hle : start ≤ idx) (h : events.drop idx = []) :
    slice events start idx = events.drop start := by
  unfold slice
  have hlen : events.length ≤ idx := by
    by_contra hc
    push_neg at hc
    have := List.drop_eq_nil_iff.mp h
    omega
  apply List.take_of_length_le
  simp only [List.length_drop]
  omega

theorem intoGroups_flat {fs : String → Option Tokenizer} {cm : Serializer}
    (hfs : ∀ t tk, fs t = some tk → tk.Valid) (events : List IEvent)
    (state : GState) (idx : Nat) (ctx : GroupingContext) :
    coalesceIE (flatGroups (intoGroups fs cm events state idx ctx).1)
      = coalesceIE (slice events state.start idx) := by
  cases state with
  | skipSt start => simp [intoGroups, flatGroups, Group.events, GState.start]
  | translate start =>
    unfold intoGroups
    dsimp only [GState.start]
    by_cases h1 : ctx.skip_next_group = true
    · simp [h1, flatGroups, Group.events]
    · rw [if_neg h1]
      by_cases h2 : is_codeblock_group (slice events start idx) = true
      · rw [if_pos h2]
        exact parse_codeblock_flat hfs _ _
      · rw [if_neg h2]
        simp [flatGroups, Group.events]

/-- Partition invariant of the grouper loop: the groups emitted from
any intermediate state flatten (up to text coalescing) to the pending
capture followed by the remaining events. -/
theorem groupGo_flat {fd : String → Option Directive} {fs : String → Option Tokenizer}
    {cm : Serializer} (hfs : ∀ t tk, fs t = some tk → tk.Valid) (events : List IEvent) :
    ∀ (rest : List IEvent) (idx : Nat) (state : GState) (ctx : GroupingContext),
      state.start ≤ idx → events.drop idx = rest →
      coalesceIE (flatGroups (groupGo fd fs cm events rest idx state ctx))
        = coalesceIE (slice events state.start idx ++ rest) := by
  intro rest
  induction rest with
  | nil =>
    intro idx state ctx hle hdrop
    cases state with
    | translate start =>
      have hsl : slice events start idx = events.drop start :=
        slice_of_drop_nil hle hdrop
      simp only [groupGo, GState.start] at *
      rw [List.append_nil, hsl]
      simp [flatGroups, Group.events]
    | skipSt start =>
      have hsl : slice events start idx = events.drop start :=
        slice_of_drop_nil hle hdrop
      simp only [groupGo, GState.start] at *
      rw [List.append_nil, hsl]
      simp [flatGroups, Group.events]
  | cons cur rest' ih =>
    intro idx state ctx hle hdrop
    have hdrop' : events.drop (idx + 1) = rest' := drop_succ_of_drop_cons hdrop
    obtain ⟨l, e⟩ := cur
    have hone : slice events idx (idx + 1) = [(l, e)] := by
      have h := slice_extend (Nat.le_refl idx) hdrop
      rwa [slice_self, List.nil_append] at h
    have stepA : ∀ (gs : List Group) (ctxa : GroupingContext) (newSt : GState)
        (ctxb : GroupingContext),
        intoGroups fs cm events state idx ctx = (gs, ctxa) → newSt.start = idx →
        coalesceIE (flatGroups (gs ++ groupGo fd fs cm events rest' (idx + 1) newSt ctxb))
          = coalesceIE (slice events state.start idx ++ (l, e) :: rest') := by
      intro gs ctxa newSt ctxb hig hst
      rw [flatGroups_append]
      have h1 := @intoGroups_flat fs cm hfs events state idx ctx
      rw [hig] at h1
      have h2 := ih (idx + 1) newSt ctxb (by omega) hdrop'
      rw [hst, hone] at h2
      have h3 := coalesceIE_append_congr h1 h2
      simpa using h3
    have stepB : ∀ (gs : List Group) (ctxa : GroupingContext) (ctxb : GroupingContext),
        intoGroups fs cm events state (idx + 1) ctx = (gs, ctxa) →
        coalesceIE (flatGroups
            (gs ++ groupGo fd fs cm events rest' (idx + 1) (GState.skipSt (idx + 1)) ctxb))
          = coalesceIE (slice events state.start idx ++ (l, e) :: rest') := by
      intro gs ctxa ctxb hig
      rw [flatGroups_append]
      have h1 := @intoGroups_flat fs cm hfs events state (idx + 1) ctx
      rw [hig] at h1
      have h2 := ih (idx + 1) (GState.skipSt (idx + 1)) ctxb (Nat.le_refl _) hdrop'
      rw [show (GState.skipSt (idx + 1)).start = idx + 1 from rfl, slice_self,
        List.nil_append] at h2
      have h3 := coalesceIE_append_congr h1 h2
      rw [slice_extend hle hdrop] at h3
      simpa using h3
    have stepC : ∀ ctxb : GroupingContext,
        coalesceIE (flatGroups (groupGo fd fs cm events rest' (idx + 1) state ctxb))
          = coalesceIE (slice events state.start idx ++ (l, e) :: rest') := by
      intro ctxb
      have h2 := ih (idx + 1) state ctxb (Nat.le_trans hle (Nat.le_succ idx)) hdrop'
      rw [slice_extend hle hdrop] at h2
      simpa using h2
    cases e with
    | startTag t =>
      cases t with
      | paragraph =>
        rcases hig : intoGroups fs cm events state idx ctx with ⟨gs, ctxa⟩
        simp only [groupGo, hig]
        exact stepA gs ctxa _ _ hig rfl
      | codeBlock k =>
        rcases hig : intoGroups fs cm events state idx ctx with ⟨gs, ctxa⟩
        simp only [groupGo, hig]
        exact stepA gs ctxa _ _ hig rfl
      | emphasis =>
        cases state with
        | skipSt start =>
          rcases hig : intoGroups fs cm events (.skipSt start) idx ctx with ⟨gs, ctxa⟩
          simp only [groupGo, hig]
          exact stepA gs ctxa _ _ hig rfl
        | translate start =>
          simp only [groupGo]
          exact stepC ctx
      | strong =>
        cases state with
        | skipSt start =>
          rcases hig : intoGroups fs cm events (.skipSt start) idx ctx with ⟨gs, ctxa⟩
          simp only [groupGo, hig]
          exact stepA gs ctxa _ _ hig rfl
        | translate start =>
          simp only [groupGo]
          exact stepC ctx
      | strikethrough =>
        cases state with
        | skipSt start =>
          rcases hig : intoGroups fs cm events (.skipSt start) idx ctx with ⟨gs, ctxa⟩
          simp only [groupGo, hig]
          exact stepA gs ctxa _ _ hig rfl
        | translate start =>
          simp only [groupGo]
          exact stepC ctx
      | link lt d ti i =>
        cases state with
        | skipSt start =>
          rcases hig : intoGroups fs cm events (.skipSt start) idx ctx with ⟨gs, ctxa⟩
          simp only [groupGo, hig]
          exact stepA gs ctxa _ _ hig rfl
        | translate start =>
          simp only [groupGo]
          exact stepC ctx
      | image lt d ti i =>
        cases state with
        | skipSt start =>
          rcases hig : intoGroups fs cm events (.skipSt start) idx ctx with ⟨gs, ctxa⟩
          simp only [groupGo, hig]
          exact stepA gs ctxa _ _ hig rfl
        | translate start =>
          simp only [groupGo]
          exact stepC ctx
      | heading =>
        cases state with
        | translate start =>
          rcases hig : intoGroups fs cm events (.translate start) idx ctx with ⟨gs, ctxa⟩
          simp only [groupGo, hig]
          exact stepA gs ctxa _ _ hig rfl
        | skipSt start =>
          simp only [groupGo]
          exact stepC ctx
      | blockQuote =>
        cases state with
        | translate start =>
          rcases hig : intoGroups fs cm events (.translate start) idx ctx with ⟨gs, ctxa⟩
          simp only [groupGo, hig]
          exact stepA gs ctxa _ _ hig rfl
        | skipSt start =>
          simp only [groupGo]
          exact stepC ctx
      | htmlBlock =>
        cases state with
        | translate start =>
          rcases hig : intoGroups fs cm events (.translate start) idx ctx with ⟨gs, ctxa⟩
          simp only [groupGo, hig]
          exact stepA gs ctxa _ _ hig rfl
        | skipSt start =>
          simp only [groupGo]
          exact stepC ctx
      | list =>
        cases state with
        | translate start =>
          rcases hig : intoGroups fs cm events (.translate start) idx ctx with ⟨gs, ctxa⟩
          simp only [groupGo, hig]
          exact stepA gs ctxa _ _ hig rfl
        | skipSt start =>
          simp only [groupGo]
          exact stepC ctx
      | item =>
        cases state with
        | translate start =>
          rcases hig : intoGroups fs cm events (.translate start) idx ctx with ⟨gs, ctxa⟩
          simp only [groupGo, hig]
          exact stepA gs ctxa _ _ hig rfl
        | skipSt start =>
          simp only [groupGo]
          exact stepC ctx
      | footnoteDefinition =>
        cases state with
        | translate start =>
          rcases hig : intoGroups fs cm events (.translate start) idx ctx with ⟨gs, ctxa⟩
          simp only [groupGo, hig]
          exact stepA gs ctxa _ _ hig rfl
        | skipSt start =>
          simp only [groupGo]
          exact stepC ctx
      | table =>
        cases state with
        | translate start =>
          rcases hig : intoGroups fs cm events (.translate start) idx ctx with ⟨gs, ctxa⟩
          simp only [groupGo, hig]
          exact stepA gs ctxa _ _ hig rfl
        | skipSt start =>
          simp only [groupGo]
          exact stepC ctx
      | tableHead =>
        cases state with
        | translate start =>
          rcases hig : intoGroups fs cm events (.translate start) idx ctx with ⟨gs, ctxa⟩
          simp only [groupGo, hig]
          exact stepA gs ctxa _ _ hig rfl
        | skipSt start =>
          simp only [groupGo]
          exact stepC ctx
      | tableRow =>
        cases state with
        | translate start =>
          rcases hig : intoGroups fs cm events (.translate start) idx ctx with ⟨gs, ctxa⟩
          simp only [groupGo, hig]
          exact stepA gs ctxa _ _ hig rfl
        | skipSt start =>
          simp only [groupGo]
          exact stepC ctx
      | tableCell =>
        cases state with
        | translate start =>
          rcases hig : intoGroups fs cm events (.translate start) idx ctx with ⟨gs, ctxa⟩
          simp only [groupGo, hig]
          exact stepA gs ctxa _ _ hig rfl
        | skipSt start =>
          simp only [groupGo]
          exact stepC ctx
    | «endTag» t =>
      cases t with
      | paragraph =>
        rcases hig : intoGroups fs cm events state (idx + 1) ctx with ⟨gs, ctxa⟩
        simp only [groupGo, hig]
        exact stepB gs ctxa _ hig
      | codeBlock =>
        rcases hig : intoGroups fs cm events state (idx + 1) ctx with ⟨gs, ctxa⟩
        simp only [groupGo, hig]
        exact stepB gs ctxa _ hig
      | emphasis =>
        cases state with
        | skipSt start =>
          rcases hig : intoGroups fs cm events (.skipSt start) idx ctx with ⟨gs, ctxa⟩
          simp only [groupGo, hig]
          exact stepA gs ctxa _ _ hig rfl
        | translate start =>
          simp only [groupGo]
          exact stepC ctx
      | strong =>
        cases state with
        | skipSt start =>
          rcases hig : intoGroups fs cm events (.skipSt start) idx ctx with ⟨gs, ctxa⟩
          simp only [groupGo, hig]
          exact stepA gs ctxa _ _ hig rfl
        | translate start =>
          simp only [groupGo]
          exact stepC ctx
      | strikethrough =>
        cases state with
        | skipSt start =>
          rcases hig : intoGroups fs cm events (.skipSt start) idx ctx with ⟨gs, ctxa⟩
          simp only [groupGo, hig]
          exact stepA gs ctxa _ _ hig rfl
        | translate start =>
          simp only [groupGo]
          exact stepC ctx
      | link =>
        cases state with
        | skipSt start =>
          rcases hig : intoGroups fs cm events (.skipSt start) idx ctx with ⟨gs, ctxa⟩
          simp only [groupGo, hig]
          exact stepA gs ctxa _ _ hig rfl
        | translate start =>
          simp only [groupGo]
          exact stepC ctx
      | image =>
        cases state with
        | skipSt start =>
          rcases hig : intoGroups fs cm events (.skipSt start) idx ctx with ⟨gs, ctxa⟩
          simp only [groupGo, hig]
          exact stepA gs ctxa _ _ hig rfl
        | translate start =>
          simp only [groupGo]
          exact stepC ctx
      | heading =>
        cases state with
        | translate start =>
          rcases hig : intoGroups fs cm events (.translate start) idx ctx with ⟨gs, ctxa⟩
          simp only [groupGo, hig]
          exact stepA gs ctxa _ _ hig rfl
        | skipSt start =>
          simp only [groupGo]
          exact stepC ctx
      | blockQuote =>
        cases state with
        | translate start =>
          rcases hig : intoGroups fs cm events (.translate start) idx ctx with ⟨gs, ctxa⟩
          simp only [groupGo, hig]
          exact stepA gs ctxa _ _ hig rfl
        | skipSt start =>
          simp only [groupGo]
          exact stepC ctx
      | htmlBlock =>
        cases state with
        | translate start =>
          rcases hig : intoGroups fs cm events (.translate start) idx ctx with ⟨gs, ctxa⟩
          simp only [groupGo, hig]
          exact stepA gs ctxa _ _ hig rfl
        | skipSt start =>
          simp only [groupGo]
          exact stepC ctx
      | list =>
        cases state with
        | translate start =>
          rcases hig : intoGroups fs cm events (.translate start) idx ctx with ⟨gs, ctxa⟩
          simp only [groupGo, hig]
          exact stepA gs ctxa _ _ hig rfl
        | skipSt start =>
          simp only [groupGo]
          exact stepC ctx
      | item =>
        cases state with
        | translate start =>
          rcases hig : intoGroups fs cm events (.translate start) idx ctx with ⟨gs, ctxa⟩
          simp only [groupGo, hig]
          exact stepA gs ctxa _ _ hig rfl
        | skipSt start =>
          simp only [groupGo]
          exact stepC ctx
      | footnoteDefinition =>
        cases state with
        | translate start =>
          rcases hig : intoGroups fs cm events (.translate start) idx ctx with ⟨gs, ctxa⟩
          simp only [groupGo, hig]
          exact stepA gs ctxa _ _ hig rfl
        | skipSt start =>
          simp only [groupGo]
          exact stepC ctx
      | table =>
        cases state with
        | translate start =>
          rcases hig : intoGroups fs cm events (.translate start) idx ctx with ⟨gs, ctxa⟩
          simp only [groupGo, hig]
          exact stepA gs ctxa _ _ hig rfl
        | skipSt start =>
          simp only [groupGo]
          exact stepC ctx
      | tableHead =>
        cases state with
        | translate start =>
          rcases hig : intoGroups fs cm events (.translate start) idx ctx with ⟨gs, ctxa⟩
          simp only [groupGo, hig]
          exact stepA gs ctxa _ _ hig rfl
        | skipSt start =>
          simp only [groupGo]
          exact stepC ctx
      | tableRow =>
        cases state with
        | translate start =>
          rcases hig : intoGroups fs cm events (.translate start) idx ctx with ⟨gs, ctxa⟩
          simp only [groupGo, hig]
          exact stepA gs ctxa _ _ hig rfl
        | skipSt start =>
          simp only [groupGo]
          exact stepC ctx
      | tableCell =>
        cases state with
        | translate start =>
          rcases hig : intoGroups fs cm events (.translate start) idx ctx with ⟨gs, ctxa⟩
          simp only [groupGo, hig]
          exact stepA gs ctxa _ _ hig rfl
        | skipSt start =>
          simp only [groupGo]
          exact stepC ctx
    | text s =>
      cases state with
      | skipSt start =>
        rcases hig : intoGroups fs cm events (.skipSt start) idx ctx with ⟨gs, ctxa⟩
        simp only [groupGo, hig]
        exact stepA gs ctxa _ _ hig rfl
      | translate start =>
        simp only [groupGo]
        exact stepC ctx
    | code s =>
      cases state with
      | skipSt start =>
        rcases hig : intoGroups fs cm events (.skipSt start) idx ctx with ⟨gs, ctxa⟩
        simp only [groupGo, hig]
        exact stepA gs ctxa _ _ hig rfl
      | translate start =>
        simp only [groupGo]
        exact stepC ctx
    | footnoteReference s =>
      cases state with
      | skipSt start =>
        rcases hig : intoGroups fs cm events (.skipSt start) idx ctx with ⟨gs, ctxa⟩
        simp only [groupGo, hig]
        exact stepA gs ctxa _ _ hig rfl
      | translate start =>
        simp only [groupGo]
        exact stepC ctx
    | softBreak =>
      cases state with
      | skipSt start =>
        rcases hig : intoGroups fs cm events (.skipSt start) idx ctx with ⟨gs, ctxa⟩
        simp only [groupGo, hig]
        exact stepA gs ctxa _ _ hig rfl
      | translate start =>
        simp only [groupGo]
        exact stepC ctx
    | hardBreak =>
      cases state with
      | skipSt start =>
        rcases hig : intoGroups fs cm events (.skipSt start) idx ctx with ⟨gs, ctxa⟩
        simp only [groupGo, hig]
        exact stepA gs ctxa _ _ hig rfl
      | translate start =>
        simp only [groupGo]
        exact stepC ctx
    | html s =>
      cases hfd : fd s with
      | some d =>
        cases d with
        | skip =>
          cases state with
          | translate start =>
            rcases hig : intoGroups fs cm events (.translate start) idx ctx with ⟨gs, ctxa⟩
            simp only [groupGo, hfd, hig]
            exact stepA gs ctxa _ _ hig rfl
          | skipSt start =>
            simp only [groupGo, hfd]
            exact stepC _
        | comment c =>
          cases state with
          | translate start =>
            rcases hig : intoGroups fs cm events (.translate start) idx ctx with ⟨gs, ctxa⟩
            simp only [groupGo, hfd, hig]
            exact stepA gs ctxa _ _ hig rfl
          | skipSt start =>
            simp only [groupGo, hfd]
            exact stepC _
      | none =>
        cases state with
        | translate start =>
          rcases hig : intoGroups fs cm events (.translate start) idx ctx with ⟨gs, ctxa⟩
          simp only [groupGo, hfd, hig]
          exact stepA gs ctxa _ _ hig rfl
        | skipSt start =>
          simp only [groupGo, hfd]
          exact stepC ctx
    | inlineHtml s =>
      cases hfd : fd s with
      | some d =>
        cases d with
        | skip =>
          cases state with
          | translate start =>
            rcases hig : intoGroups fs cm events (.translate start) idx ctx with ⟨gs, ctxa⟩
            simp only [groupGo, hfd, hig]
            exact stepA gs ctxa _ _ hig rfl
          | skipSt start =>
            simp only [groupGo, hfd]
            exact stepC _
        | comment c =>
          cases state with
          | translate start =>
            rcases hig : intoGroups fs cm events (.translate start) idx ctx with ⟨gs, ctxa⟩
            simp only [groupGo, hfd, hig]
            exact stepA gs ctxa _ _ hig rfl
          | skipSt start =>
            simp only [groupGo, hfd]
            exact stepC _
      | none =>
        cases state with
        | skipSt start =>
          rcases hig : intoGroups fs cm events (.skipSt start) idx ctx with ⟨gs, ctxa⟩
          simp only [groupGo, hfd, hig]
          exact stepA gs ctxa _ _ hig rfl
        | translate start =>
          simp only [groupGo, hfd]
          exact stepC ctx
    | rule =>
      cases state with
      | translate start =>
        rcases hig : intoGroups fs cm events (.translate start) idx ctx with ⟨gs, ctxa⟩
        simp only [groupGo, hig]
        exact stepA gs ctxa _ _ hig rfl
      | skipSt start =>
        simp only [groupGo]
        exact stepC ctx
    | taskListMarker b =>
      cases state with
      | translate start =>
        rcases hig : intoGroups fs cm events (.translate start) idx ctx with ⟨gs, ctxa⟩
        simp only [groupGo, hig]
        exact stepA gs ctxa _ _ hig rfl
      | skipSt start =>
        simp only [groupGo]
        exact stepC ctx

/-- Top-level partition property, up to coalescing of split text
events. -/
theorem group_events_flat {fd : String → Option Directive} {fs : String → Option Tokenizer}
    {cm : Serializer} (hfs : ∀ t tk, fs t = some tk → tk.Valid) (events : List IEvent) :
    coalesceIE (flatGroups (group_events fd fs cm events)) = coalesceIE events := by
  have h := @groupGo_flat fd fs cm hfs events events 0 (.skipSt 0) {}
    (Nat.le_refl 0) rfl
  rw [show (GState.skipSt 0).start = 0 from rfl, slice_self, List.nil_append] at h
  exact h

/-! ## Translation over an empty catalog -/

theorem translateGo_empty {cm : Serializer} {parse : String → List (Event × Nat)}
    {catalog : Catalog} (hempty : catalog.messages = []) :
    ∀ (gs : List Group) (st : Option cm.St),
    translateGo cm parse catalog gs st = flatGroups gs := by
  intro gs
  induction gs with
  | nil => intro st; rfl
  | cons g gs' ih =>
    intro st
    cases g with
    | translate evs c =>
      have hfind : catalog.find_message (reconstruct_markdown cm evs st).1 = none := by
        unfold Catalog.find_message
        rw [hempty]
        rfl
      simp only [translateGo, hfind]
      dsimp only [Option.filter, Option.map]
      rw [ih]
      simp [flatGroups, Group.events]
    | skip evs =>
      simp only [translateGo]
      rw [ih]
      simp [flatGroups, Group.events]

/-- With an empty catalog, `translate_events` returns exactly the
concatenation of the groups. -/
theorem translate_events_empty {fd : String → Option Directive}
    {fs : String → Option Tokenizer} {cm : Serializer}
    {parse : String → List (Event × Nat)} {catalog : Catalog}
    (hempty : catalog.messages = []) (events : List IEvent) :
    translate_events fd fs cm parse events catalog
      = flatGroups (group_events fd fs cm events) := by
  unfold translate_events
  exact translateGo_empty hempty _ none

/-! ## Line-number bounds of `extract_events` -/

theorem enumFrom_filter_snd_length {α : Type} (pred : α → Bool) :
    ∀ (l : List α) (n : Nat),
    ((List.enumFrom n l).filter fun p => pred p.2).length = l.countP pred := by
  intro l
  induction l with
  | nil => intro n; rfl
  | cons x xs ih =>
    intro n
    by_cases hx : pred x
    · simp [List.enumFrom, List.filter, List.countP_cons, hx, ih]
    · simp [List.enumFrom, List.filter, List.countP_cons, hx, ih]

theorem newlineOffsets_length (s : String) :
    (newlineOffsets s).length = newlineCount s := by
  unfold newlineOffsets newlineCount
  rw [List.length_map]
  rw [show s.data.enum = List.enumFrom 0 s.data from rfl]
  exact enumFrom_filter_snd_length (fun c => decide (c = '\n')) s.data 0

theorem extractFromRaw_bounds {text : String} {raw : List (Event × Nat)} :
    ∀ p ∈ extractFromRaw (newlineOffsets text) raw,
      1 ≤ p.1 ∧ p.1 ≤ countLines text := by
  intro p hp
  unfold extractFromRaw at hp
  rcases List.mem_map.mp hp with ⟨q, hq, rfl⟩
  dsimp only
  constructor
  · omega
  · have h1 : (newlineOffsets text).countP (· < q.2) ≤ (newlineOffsets text).length :=
      List.countP_le_length _
    rw [newlineOffsets_length] at h1
    unfold countLines
    omega

theorem splitInclusiveNl_length (cs : List Char) :
    (splitInclusiveNl cs).length ≤ cs.countP (· = '\n') + 1 := by
  induction cs with
  | nil => simp [splitInclusiveNl]
  | cons c cs' ih =>
    by_cases hc : c = '\n'
    · simp only [splitInclusiveNl, if_pos hc, List.length_cons, List.countP_cons]
      simp [hc]
      omega
    · simp only [splitInclusiveNl, if_neg hc, List.countP_cons]
      rcases hsp : splitInclusiveNl cs' with _ | ⟨l, ls⟩
      · simp [hc]
      · rw [hsp] at ih
        simp only [List.length_cons] at ih ⊢
        simp [hc]
        omega

/-- Every line number produced by `extract_events` is between 1 and
the number of lines of the input. -/
theorem extract_events_bounds (cm : Serializer) (parse : String → List (Event × Nat))
    (text : String) (state : Option cm.St) :
    ∀ p ∈ extract_events cm parse text state,
      1 ≤ p.1 ∧ p.1 ≤ countLines text := by
  intro p hp
  unfold extract_events at hp
  rcases state with _ | st
  · exact extractFromRaw_bounds p hp
  · dsimp only at hp
    by_cases hcb : cm.inCodeBlock st = true
    · rw [if_pos hcb] at hp
      rcases List.mem_map.mp hp with ⟨q, hq, rfl⟩
      dsimp only
      have hlt : q.1 < ((splitInclusiveNl text.data).map String.mk).length := by
        have := List.fst_lt_of_mem_enum hq
        exact this
      rw [List.length_map] at hlt
      have hlen := splitInclusiveNl_length text.data
      unfold countLines newlineCount
      constructor
      · omega
      · omega
    · rw [if_neg hcb] at hp
      exact extractFromRaw_bounds p hp

/-! ## The per-entry pairing of the normalizer -/

theorem normalizeMessage_eq (extractF : PoMessage → MessageField → List (Nat × String))
    (wrap : String → String) (m : PoMessage)
    (hne : extractF m .msgid ≠ []) :
    normalizeMessage extractF wrap m
      = ((extractF m .msgid).zip
          (if (extractF m .msgid).length < (extractF m .msgstr).length then
            (extractF m .msgstr).take ((extractF m .msgid).length - 1)
              ++ [(0, joinSep "\n\n" (((extractF m .msgstr).drop
                    ((extractF m .msgid).length - 1)).map (·.2)))]
          else if (extractF m .msgstr).length < (extractF m .msgid).length then
            (extractF m .msgstr)
              ++ List.replicate ((extractF m .msgid).length - (extractF m .msgstr).length) (0, "")
          else extractF m .msgstr)).map fun p =>
        { msgid := p.1.2, msgstr := p.2.2,
          source := compute_source wrap m.source (p.1.1 - 1),
          comments := "",
          fuzzy := m.fuzzy || (m.isTranslated
            && decide ((extractF m .msgid).length ≠ (extractF m .msgstr).length)) } := by
  unfold normalizeMessage
  rw [if_neg (by simpa [List.isEmpty_iff] using hne)]

theorem normalizeMessage_strs_length (ids strs : List (Nat × String))
    (hne : ids ≠ []) :
    (if ids.length < strs.length then
      strs.take (ids.length - 1)
        ++ [(0, joinSep "\n\n" ((strs.drop (ids.length - 1)).map (·.2)))]
    else if strs.length < ids.length then
      strs ++ List.replicate (ids.length - strs.length) (0, "")
    else strs).length = ids.length := by
  have hpos : 0 < ids.length := List.length_pos.mpr hne
  by_cases h1 : ids.length < strs.length
  · rw [if_pos h1]
    simp only [List.length_append, List.length_take, List.length_cons, List.length_nil]
    omega
  · rw [if_neg h1]
    by_cases h2 : strs.length < ids.length
    · rw [if_pos h2]
      simp only [List.length_append, List.length_replicate]
      omega
    · rw [if_neg h2]
      omega

/-! ## Concrete instances used by closed witnesses and counterexamples -/

/-- A serializer with trivial state and constant output, used to
instantiate the abstract serializer in closed statements. -/
def trivialSerializer : Serializer where
  St := Unit
  run := fun _ _ => ("", ())
  simplify := id
  inCodeBlock := fun _ => false

/-- Parser oracle producing, on the input `"Hello,\nworld!"`, exactly
the raw events and range starts that `pulldown_cmark` produces there —
the resulting labelled events are the documented example output of
`extract_events` in `lib.rs` (paragraph and end-paragraph ranges start
at offset 0, the two text runs at offsets 0 and 7, the soft break at
offset 6). -/
def parseHello : String → List (Event × Nat) := fun s =>
  if s = "Hello,\nworld!" then
    [(.startTag .paragraph, 0), (.text "Hello,", 0), (.softBreak, 6),
     (.text "world!", 7), (.endTag .paragraph, 0)]
  else []

/-- Tokenizer oracle reflecting `syntect`'s Rust grammar on the single
line of the code-block counterexample: `let a = 1; // x\n` tokenizes
into a code range (columns 0-11, not translated) and a line-comment
range (columns 11-16, translated).  The repository's own test
`extract_messages_code_block_with_continuous_line_comments` records
this splitting of Rust lines with trailing comments.  Any other line is
one untranslated range covering the whole line. -/
def rustLineTok : Tokenizer where
  S := Unit
  init := ()
  parseLine := fun _ s =>
    if s = "let a = 1; // x\n" then ((), .parsed [(0, 11, false), (11, 16, true)] false)
    else ((), .parsed [(0, s.data.length, false)] false)

/-- A syntax set resolving only the token `rust`. -/
def rustSyntaxOracle : String → Option Tokenizer :=
  fun t => if t = "rust" then some rustLineTok else none

theorem strSlice_full (s : String) : strSlice s 0 s.data.length = s := by
  unfold strSlice
  cases s with
  | mk data => simp

theorem rustLineTok_valid : rustLineTok.Valid := by
  intro st s st' rs h
  unfold rustLineTok at h
  dsimp only at h
  by_cases hs : s = "let a = 1; // x\n"
  · rw [if_pos hs] at h
    obtain ⟨-, h2⟩ := Prod.mk.injEq .. ▸ h
    obtain ⟨hrs, -⟩ := LineTok.parsed.injEq .. ▸ h2
    subst hrs hs
    decide
  · rw [if_neg hs] at h
    obtain ⟨-, h2⟩ := Prod.mk.injEq .. ▸ h
    obtain ⟨hrs, -⟩ := LineTok.parsed.injEq .. ▸ h2
    subst hrs
    show strConcat [strSlice s 0 s.data.length] = s
    rw [strConcat_cons]
    show strSlice s 0 s.data.length ++ strConcat [] = s
    rw [show strConcat [] = "" from rfl, strAppend_empty, strSlice_full]

theorem rustSyntaxOracle_valid : ∀ t tk, rustSyntaxOracle t = some tk → tk.Valid := by
  intro t tk h
  unfold rustSyntaxOracle at h
  by_cases ht : t = "rust"
  · rw [if_pos ht] at h
    obtain rfl : rustLineTok = tk := Option.some.injEq .. ▸ h
    exact rustLineTok_valid
  · rw [if_neg ht] at h
    exact absurd h (by simp)

/-- The code-block event stream of the splitting counterexample: a
fenced Rust block holding one text line with a trailing comment. -/
def cbEvents : List IEvent :=
  [(1, .startTag (.codeBlock (.fenced "rust"))), (2, .text "let a = 1; // x\n"),
   (3, .endTag .codeBlock)]

/-- A directive finder recognizing exactly the comment
`<!-- mdbook-xgettext:skip -->`, whose classification as `Skip` is
pinned by the repository's directives test `test_different_prefix`. -/
def skipDirOracle : String → Option Directive := fun s =>
  if s = "<!-- mdbook-xgettext:skip -->" then some .skip else none

/-- A directive finder that recognizes nothing. -/
def noDirective : String → Option Directive := fun _ => none

/-- A syntax set that resolves no language token. -/
def noSyntax : String → Option Tokenizer := fun _ => none

/-- The empty catalog: default metadata, no messages. -/
def emptyCatalog : Catalog := ⟨{}, []⟩

/-! ## Skip-flag preservation through the code-block sub-parser -/

theorem takeComments_flag (ctx : GroupingContext) :
    ((takeComments ctx).2).skip_next_group = ctx.skip_next_group := rfl

theorem flushTranslateBuf_flag (acc : List IEvent × List Group × GroupingContext) :
    ((flushTranslateBuf acc).2).skip_next_group = acc.2.2.skip_next_group := by
  rcases acc with ⟨buf, groups, ctx⟩
  unfold flushTranslateBuf
  dsimp only
  rcases extract_trailing_whitespaces buf with ⟨buf', ws⟩
  by_cases h1 : buf'.isEmpty <;> by_cases h2 : ws.isEmpty <;> simp [h1, h2, takeComments]

theorem rangeStep_flag (tl : Nat) (s : String)
    (acc : List IEvent × List Group × GroupingContext) (r : Nat × Nat × Bool) :
    ((rangeStep tl s acc r)).2.2.skip_next_group = acc.2.2.skip_next_group := by
  rcases acc with ⟨buf, groups, ctx⟩
  unfold rangeStep
  dsimp only
  by_cases hr : r.2.1 ≤ r.1
  · rw [if_pos hr]
  · rw [if_neg hr]
    by_cases htr : (r.2.2 || (isSpaceTab (strSlice s r.1 r.2.1) && ¬buf.isEmpty)) = true
    · rw [if_pos htr]
    · rw [if_neg htr]
      rcases hfl : flushTranslateBuf (buf, groups, ctx) with ⟨g', c'⟩
      have h := flushTranslateBuf_flag (buf, groups, ctx)
      rw [hfl] at h
      simpa using h

theorem foldl_rangeStep_flag (tl : Nat) (s : String) (rs : List (Nat × Nat × Bool)) :
    ∀ acc, ((rs.foldl (rangeStep tl s) acc)).2.2.skip_next_group
      = acc.2.2.skip_next_group := by
  induction rs with
  | nil => intro acc; rfl
  | cons r rs' ih =>
    intro acc
    rw [List.foldl_cons, ih, rangeStep_flag]

theorem pcStep_flag (tk : Tokenizer) (ev : IEvent) (ps : tk.S) (ctx : GroupingContext) :
    ((pcStep tk ev ps ctx).2.2).skip_next_group = ctx.skip_next_group := by
  rcases ev with ⟨tl, e⟩
  cases e <;> try rfl
  case text s =>
    unfold pcStep
    dsimp only
    rcases hpl : tk.parseLine ps s with ⟨ps', res⟩
    simp only [hpl]
    cases res with
    | parseFailed => rfl
    | parsed rs fail =>
      cases fail with
      | true =>
        have h1 := foldl_rangeStep_flag tl s rs ([], [], ctx)
        have h2 := flushTranslateBuf_flag (rs.foldl (rangeStep tl s) ([], [], ctx))
        simp [takeComments, h2, h1]
      | false =>
        have h1 := foldl_rangeStep_flag tl s rs ([], [], ctx)
        have h2 := flushTranslateBuf_flag (rs.foldl (rangeStep tl s) ([], [], ctx))
        simp [h2, h1]

theorem pcGo_flag (tk : Tokenizer) :
    ∀ (evs : List IEvent) (ps : tk.S) (ctx : GroupingContext),
    ((pcGo tk evs ps ctx).2).skip_next_group = ctx.skip_next_group := by
  intro evs
  induction evs with
  | nil => intro ps ctx; rfl
  | cons ev rest ih =>
    intro ps ctx
    rcases hstep : pcStep tk ev ps ctx with ⟨gs, ps', ctx'⟩
    have h1 := pcStep_flag tk ev ps ctx
    rw [hstep] at h1
    simp only [pcGo, hstep]
    rw [ih, h1]

theorem heuristic_codeblock_flag (cm : Serializer) (events : List IEvent)
    (ctx : GroupingContext) :
    ((heuristic_codeblock cm events ctx).2).skip_next_group = ctx.skip_next_group := by
  simp only [heuristic_codeblock, takeComments]
  split_ifs <;> rfl

theorem parse_codeblock_flag (fs : String → Option Tokenizer) (cm : Serializer)
    (events : List IEvent) (ctx : GroupingContext) :
    ((parse_codeblock fs cm events ctx).2).skip_next_group = ctx.skip_next_group := by
  unfold parse_codeblock
  cases hsyn : codeblockSyntax fs events with
  | none => exact heuristic_codeblock_flag cm events ctx
  | some tk => exact pcGo_flag tk events tk.init ctx

/-! ## Claims -/

/-- Helper for C5: start from a fresh builder and repeatedly push
`"foo"` and pop again. -/
def pushPopIter (d : Nat) : Nat → UniquePathBuilder
  | 0 => UniquePathBuilder.new d
  | n + 1 => ((pushPopIter d n).push "foo").pop

theorem slug_foo : slug "foo" = "foo" := by decide

theorem pushPopIter_state (d : Nat) (hd : 1 ≤ d) :
    ∀ n, pushPopIter d n
      = ⟨[], 0, d, if n = 0 then [] else [(["foo"], n - 1)]⟩ := by
  intro n
  induction n with
  | zero => rfl
  | succ n ih =>
    show ((pushPopIter d n).push "foo").pop = _
    rw [ih]
    unfold UniquePathBuilder.push
    dsimp only
    rw [if_neg (by omega)]
    have hfmt : UniquePathBuilder.format_path_with_counter
        ⟨[], 0, d, if n = 0 then [] else [(["foo"], n - 1)]⟩ = [] := by
      unfold UniquePathBuilder.format_path_with_counter
      by_cases hn : n = 0
      · simp [hn, lookupFreq]
      · simp [hn, lookupFreq]
    rw [hfmt, slug_foo]
    have hbump : bumpFreq (if n = 0 then [] else [(["foo"], n - 1)]) ([] ++ ["foo"])
        = [(["foo"], n)] := by
      by_cases hn : n = 0
      · simp [hn, bumpFreq]
      · simp only [hn, if_neg hn, List.nil_append]
        simp [bumpFreq]
        omega
    rw [hbump]
    unfold UniquePathBuilder.pop
    dsimp only
    rw [if_neg (by omega), if_pos (by omega)]
    simp

/-- C1 (amended): concatenating the events of all groups produced by
`group_events`, in order, yields the original event stream up to the
code-block sub-parser splitting `Text` events into consecutive pieces
with the same text: both streams are equal after merging adjacent text
events and dropping empty ones, for every tokenizer that partitions its
lines (as `syntect`'s scope ranges do). -/
theorem C1_partition_up_to_splitting (fd : String → Option Directive)
    (fs : String → Option Tokenizer) (cm : Serializer)
    (hfs : ∀ t tk, fs t = some tk → tk.Valid) (events : List IEvent) :
    coalesceIE (flatGroups (group_events fd fs cm events)) = coalesceIE events :=
  group_events_flat hfs events

/-- C1 (counterexample): on a fenced Rust code block whose single line
carries a trailing `//` comment, the code-block sub-parser splits the
`Text` event, so the concatenation of the groups is *not* the original
event list (the repository's newer fuzz target documents this:
"Events can't be compared directly because `group_events` may split a
event into some events"). -/
theorem C1_counterexample :
    flatGroups (group_events noDirective rustSyntaxOracle trivialSerializer cbEvents)
      ≠ cbEvents := by decide

/-- C1 witness: the amended partition property at the concrete
counterexample stream. -/
theorem C1_witness :
    coalesceIE (flatGroups (group_events noDirective rustSyntaxOracle trivialSerializer
        cbEvents))
      = coalesceIE cbEvents :=
  C1_partition_up_to_splitting noDirective rustSyntaxOracle trivialSerializer
    rustSyntaxOracle_valid cbEvents

/-- C2 (amended): every line number attached by `extract_events` is at
least 1 and at most the number of lines of the input (non-decrease
fails, see the counterexample: end-of-block events carry the line of
their block's start). -/
theorem C2_line_bounds (cm : Serializer) (parse : String → List (Event × Nat))
    (text : String) (state : Option cm.St) :
    ∀ p ∈ extract_events cm parse text state, 1 ≤ p.1 ∧ p.1 ≤ countLines text :=
  extract_events_bounds cm parse text state

/-- C2 (counterexample): on `"Hello,\nworld!"` — the documented example
of `extract_events` itself — the line numbers are `[1, 1, 1, 2, 1]`:
the trailing `End(Paragraph)` is numbered from the paragraph's start,
so the sequence is not non-decreasing. -/
theorem C2_counterexample :
    (extract_events trivialSerializer parseHello "Hello,\nworld!" none).map (·.1)
        = [1, 1, 1, 2, 1]
    ∧ ¬ List.Chain' (· ≤ ·)
        ((extract_events trivialSerializer parseHello "Hello,\nworld!" none).map (·.1)) := by
  have hmap : (extract_events trivialSerializer parseHello "Hello,\nworld!" none).map (·.1)
      = [1, 1, 1, 2, 1] := by decide
  refine ⟨hmap, ?_⟩
  rw [hmap]
  intro h
  simp [List.chain'_cons] at h

/-- C2 witness: the bounds at a concrete event of the example
stream. -/
theorem C2_witness :
    1 ≤ ((2, Event.text "world!") : IEvent).1
    ∧ ((2, Event.text "world!") : IEvent).1 ≤ countLines "Hello,\nworld!" :=
  C2_line_bounds trivialSerializer parseHello "Hello,\nworld!" none
    (2, Event.text "world!") (by decide)

/-- C3: translating against an empty catalog is the identity up to
canonicalization — `reconstruct_markdown` over
`translate_events(extract_events(s, None), ∅)` equals
`reconstruct_markdown` over `extract_events(s, None)` — for every
scope-partitioning tokenizer and every serializer that depends only on
the coalesced text content of its event list (as the cmark serializer
does: adjacent text events are written consecutively). -/
theorem C3_translate_identity (fd : String → Option Directive)
    (fs : String → Option Tokenizer) (cm : Serializer)
    (parse : String → List (Event × Nat)) (catalog : Catalog)
    (hfs : ∀ t tk, fs t = some tk → tk.Valid)
    (hcm : ∀ (evs evs' : List Event) (st : Option cm.St),
      coalesce evs = coalesce evs' → cm.run evs st = cm.run evs' st)
    (hempty : catalog.messages = []) (text : String) :
    (reconstruct_markdown cm
        (translate_events fd fs cm parse (extract_events cm parse text none) catalog)
        none).1
      = (reconstruct_markdown cm (extract_events cm parse text none) none).1 := by
  rw [translate_events_empty hempty]
  unfold reconstruct_markdown
  dsimp only
  have hco := @group_events_flat fd fs cm hfs
    (extract_events cm parse text none)
  unfold coalesceIE at hco
  rw [hcm _ _ _ hco]

/-- C3 witness: the identity at the concrete example document. -/
theorem C3_witness :
    (reconstruct_markdown trivialSerializer
        (translate_events noDirective noSyntax trivialSerializer parseHello
          (extract_events trivialSerializer parseHello "Hello,\nworld!" none)
          emptyCatalog)
        none).1
      = (reconstruct_markdown trivialSerializer
          (extract_events trivialSerializer parseHello "Hello,\nworld!" none) none).1 :=
  C3_translate_identity noDirective noSyntax trivialSerializer parseHello emptyCatalog
    (fun _ _ h => Option.noConfusion h)
    (fun _ _ _ _ => rfl)
    rfl
    "Hello,\nworld!"

theorem map_msgstr_zip (ids strs' : List (Nat × String)) (src : String)
    (wrap : String → String) (fz : Bool) (hl : strs'.length ≤ ids.length) :
    ((ids.zip strs').map fun p =>
      ({ msgid := p.1.2, msgstr := p.2.2,
         source := compute_source wrap src (p.1.1 - 1),
         comments := "", fuzzy := fz } : PoMessage)).map (·.msgstr)
      = strs'.map (·.2) := by
  rw [List.map_map]
  show (ids.zip strs').map (fun p => p.2.2) = strs'.map (·.2)
  rw [show (fun p : (Nat × String) × (Nat × String) => p.2.2)
      = ((fun q : Nat × String => q.2) ∘ Prod.snd) from rfl]
  rw [← List.map_map, List.map_snd_zip _ _ hl]

/-- C4: for every normalized entry whose `msgid` still yields messages,
the emitted messages are fuzzy iff the entry was fuzzy or it was
translated with differing piece counts; surplus `msgstr` pieces are
joined with blank lines onto the translation of the last `msgid`
piece; missing translations are padded with empty strings. -/
theorem C4_normalize_pairing (extractF : PoMessage → MessageField → List (Nat × String))
    (wrap : String → String) (m : PoMessage)
    (hne : extractF m .msgid ≠ []) :
    (∀ out ∈ normalizeMessage extractF wrap m,
      out.fuzzy = (m.fuzzy || (m.isTranslated
        && decide ((extractF m .msgid).length ≠ (extractF m .msgstr).length))))
    ∧ ((extractF m .msgid).length < (extractF m .msgstr).length →
        (normalizeMessage extractF wrap m).map (·.msgstr)
          = ((extractF m .msgstr).take ((extractF m .msgid).length - 1)).map (·.2)
            ++ [joinSep "\n\n"
                (((extractF m .msgstr).drop ((extractF m .msgid).length - 1)).map (·.2))])
    ∧ ((extractF m .msgstr).length < (extractF m .msgid).length →
        (normalizeMessage extractF wrap m).map (·.msgstr)
          = (extractF m .msgstr).map (·.2)
            ++ List.replicate
                ((extractF m .msgid).length - (extractF m .msgstr).length) "") := by
  have hpos : 0 < (extractF m .msgid).length := List.length_pos.mpr hne
  refine ⟨?_, ?_, ?_⟩
  · intro out hout
    rw [normalizeMessage_eq extractF wrap m hne] at hout
    rcases List.mem_map.mp hout with ⟨p, hp, rfl⟩
    rfl
  · intro h1
    rw [normalizeMessage_eq extractF wrap m hne, if_pos h1]
    rw [map_msgstr_zip _ _ _ _ _
      (by
        simp only [List.length_append, List.length_take, List.length_cons,
          List.length_nil]
        omega)]
    rw [List.map_append]
    rfl
  · intro h2
    have hnlt : ¬(extractF m .msgid).length < (extractF m .msgstr).length := by omega
    rw [normalizeMessage_eq extractF wrap m hne, if_neg hnlt, if_pos h2]
    rw [map_msgstr_zip _ _ _ _ _
      (by
        simp only [List.length_append, List.length_replicate]
        omega)]
    rw [List.map_append, List.map_replicate]

/-- Concrete extraction oracle for the C4 witness: the `msgid` yields
two pieces, the `msgstr` three (the shapes of the repository test
`test_normalize_fuzzy_paragraphs_too_many`). -/
def exExtract : PoMessage → MessageField → List (Nat × String) := fun _ f =>
  match f with
  | .msgid => [(1, "foo"), (3, "bar")]
  | .msgstr => [(1, "FOO"), (3, "BAR"), (5, "BAZ")]

/-- The message normalized in the C4 witness. -/
def exMessage : PoMessage :=
  { msgid := "foo\n\nbar", msgstr := "FOO\n\nBAR\n\nBAZ", source := "foo.md:1" }

/-- C4 witness: with two msgid pieces and three msgstr pieces, the
surplus translation is folded onto the last piece with a blank
line. -/
theorem C4_witness :
    (normalizeMessage exExtract id exMessage).map (·.msgstr) = ["FOO", "BAR\n\nBAZ"] := by
  have h := (C4_normalize_pairing exExtract id exMessage (by decide)).2.1 (by decide)
  exact h.trans (by decide)

/-- C5: a push whose new depth stays within `max_depth` replaces the
current path by its disambiguated form, appends the slug of the pushed
name and updates the frequency table; a push beyond `max_depth` only
increments the depth; consequently, repeatedly pushing the same name at
the same level yields `foo.pot`, `foo-1.pot`, `foo-2.pot`, … in
operation order. -/
theorem C5_push_behavior :
    (∀ (b : UniquePathBuilder) (s : String), b.current_depth + 1 ≤ b.max_depth →
      b.push s = ⟨b.format_path_with_counter ++ [slug s], b.current_depth + 1,
        b.max_depth, bumpFreq b.frequency_map (b.format_path_with_counter ++ [slug s])⟩)
    ∧ (∀ (b : UniquePathBuilder) (s : String), b.max_depth < b.current_depth + 1 →
      b.push s = { b with current_depth := b.current_depth + 1 })
    ∧ (∀ d, 1 ≤ d → ∀ n, ((pushPopIter d n).push "foo").get
        = if n = 0 then "foo.pot" else "foo-" ++ toString n ++ ".pot") := by
  refine ⟨?_, ?_, ?_⟩
  · intro b s h
    unfold UniquePathBuilder.push
    dsimp only
    rw [if_neg (by omega)]
  · intro b s h
    unfold UniquePathBuilder.push
    dsimp only
    rw [if_pos (by omega)]
  · intro d hd n
    rw [pushPopIter_state d hd n]
    unfold UniquePathBuilder.push
    dsimp only
    rw [if_neg (by omega)]
    have hfmt : UniquePathBuilder.format_path_with_counter
        ⟨[], 0, d, if n = 0 then [] else [(["foo"], n - 1)]⟩ = [] := by
      unfold UniquePathBuilder.format_path_with_counter
      by_cases hn : n = 0
      · simp [hn, lookupFreq]
      · simp [hn, lookupFreq]
    rw [hfmt, slug_foo]
    have hbump : bumpFreq (if n = 0 then [] else [(["foo"], n - 1)]) ([] ++ ["foo"])
        = [(["foo"], n)] := by
      by_cases hn : n = 0
      · simp [hn, bumpFreq]
      · simp only [hn, if_neg hn, List.nil_append]
        simp [bumpFreq]
        omega
    rw [hbump]
    unfold UniquePathBuilder.get
    dsimp only
    rw [if_neg (by simp; omega)]
    unfold UniquePathBuilder.format_path_with_counter
    dsimp only
    by_cases hn : n = 0
    · simp [hn, lookupFreq, joinSep]
    · simp only [lookupFreq, if_pos rfl]
      cases n with
      | zero => exact absurd rfl hn
      | succ k =>
        simp [joinSep, hn]

/-- C5 witness: the disambiguation sequence at depth 1 and the two
structural push facts at concrete builders. -/
theorem C5_witness :
    ((pushPopIter 1 0).push "foo").get = "foo.pot"
    ∧ ((pushPopIter 1 1).push "foo").get = "foo-1.pot"
    ∧ ((pushPopIter 1 2).push "foo").get = "foo-2.pot"
    ∧ (UniquePathBuilder.new 2).push "foo"
        = ⟨["foo"], 1, 2, [(["foo"], 0)]⟩
    ∧ UniquePathBuilder.push ⟨["a", "b"], 2, 2, []⟩ "c"
        = ⟨["a", "b"], 3, 2, []⟩ := by
  refine ⟨?_, ?_, ?_, ?_, ?_⟩
  · exact (C5_push_behavior.2.2 1 (by decide) 0).trans (by decide)
  · exact (C5_push_behavior.2.2 1 (by decide) 1).trans (by decide)
  · exact (C5_push_behavior.2.2 1 (by decide) 2).trans (by decide)
  · exact (C5_push_behavior.1 (UniquePathBuilder.new 2) "foo" (by decide)).trans (by decide)
  · exact (C5_push_behavior.2.1 ⟨["a", "b"], 2, 2, []⟩ "c" (by decide)).trans (by decide)

/-- C6: for a code-block group whose fenced-info language token does
not resolve against the syntax set, the sub-parser emits the whole
block as one Translate group when the reconstructed Markdown contains a
double quote or `//`, and as one Skip group otherwise. -/
theorem C6_heuristic_fallback (fs : String → Option Tokenizer) (cm : Serializer)
    (events : List IEvent) (ctx : GroupingContext)
    (hshape : is_codeblock_group events = true)
    (hnosyn : codeblockSyntax fs events = none) :
    parse_codeblock fs cm events ctx
      = if containsChar (reconstruct_markdown cm events none).1 '"'
            || containsSub (reconstruct_markdown cm events none).1 "//" then
          ([.translate events (joinSep " " ctx.comments)], { ctx with comments := [] })
        else ([.skip events], ctx) := by
  unfold parse_codeblock
  rw [hnosyn]
  unfold heuristic_codeblock
  rw [hshape]
  simp only [if_true]
  split <;> rfl

/-- C6 witness: a fenced block with no language and no quote or `//`
becomes a single Skip group. -/
theorem C6_witness :
    parse_codeblock noSyntax trivialSerializer
        [(1, .startTag (.codeBlock (.fenced ""))), (1, .text "x"), (1, .endTag .codeBlock)]
        {}
      = ([.skip [(1, .startTag (.codeBlock (.fenced ""))), (1, .text "x"),
          (1, .endTag .codeBlock)]], {}) := by
  have h := C6_heuristic_fallback noSyntax trivialSerializer
    [(1, .startTag (.codeBlock (.fenced ""))), (1, .text "x"), (1, .endTag .codeBlock)]
    {} (by decide) rfl
  rw [h]
  decide

/-- C7 (amended): a pending skip flag reclassifies exactly the next
Translate capture emitted at a block boundary into a single Skip group
and is cleared by it; captures emitted from the Skip state never
consume the flag; emitting a Translate capture with the flag clear
leaves the flag clear (the code-block sub-parser never touches it); but
the end-of-input flush emits a still-open translate run as a Translate
group without consulting the flag — so the reclassification is only
guaranteed for groups closed by a block boundary, which covers all
parser-produced streams, whose blocks are always closed. -/
theorem C7_skip_directive (fd : String → Option Directive)
    (fs : String → Option Tokenizer) (cm : Serializer) :
    (∀ (events : List IEvent) (start idx : Nat) (ctx : GroupingContext),
      ctx.skip_next_group = true →
      intoGroups fs cm events (.translate start) idx ctx
        = ([.skip (slice events start idx)], { ctx with skip_next_group := false }))
    ∧ (∀ (events : List IEvent) (start idx : Nat) (ctx : GroupingContext),
      intoGroups fs cm events (.skipSt start) idx ctx
        = ([.skip (slice events start idx)], ctx))
    ∧ (∀ (events : List IEvent) (start idx : Nat) (ctx : GroupingContext),
      ctx.skip_next_group = false →
      ((intoGroups fs cm events (.translate start) idx ctx).2).skip_next_group = false)
    ∧ (∀ (events : List IEvent) (idx start : Nat) (ctx : GroupingContext),
      groupGo fd fs cm events [] idx (.translate start) ctx
        = [.translate (events.drop start) ""]) := by
  refine ⟨?_, ?_, ?_, ?_⟩
  · intro events start idx ctx h
    unfold intoGroups
    dsimp only
    rw [if_pos h]
  · intro events start idx ctx
    rfl
  · intro events start idx ctx h
    unfold intoGroups
    dsimp only
    rw [if_neg (by simp [h])]
    by_cases hcb : is_codeblock_group (slice events start idx) = true
    · rw [if_pos hcb]
      rw [parse_codeblock_flag]
      exact h
    · rw [if_neg hcb]
      dsimp only
      rw [takeComments_flag]
      exact h
  · intro events idx start ctx
    rfl

/-- C7 (counterexample): in a stream that ends while a translate run is
open, a preceding skip directive does not reclassify the next Translate
group: the flag is pending, yet the tail is emitted as Translate. -/
theorem C7_counterexample :
    skipDirOracle "<!-- mdbook-xgettext:skip -->" = some .skip
    ∧ group_events skipDirOracle noSyntax trivialSerializer
        [(1, .html "<!-- mdbook-xgettext:skip -->"), (1, .text "foo")]
      = [.skip [(1, .html "<!-- mdbook-xgettext:skip -->")],
         .translate [(1, .text "foo")] ""] := by
  constructor
  · decide
  · decide

/-- C7 witness: the reclassification, flag-clearing, and flag-free
behaviors at concrete inputs. -/
theorem C7_witness :
    intoGroups noSyntax trivialSerializer [(1, Event.text "foo")] (.translate 0) 1
        ⟨true, []⟩
      = ([.skip (slice [(1, Event.text "foo")] 0 1)], ⟨false, []⟩)
    ∧ intoGroups noSyntax trivialSerializer [(1, Event.text "foo")] (.skipSt 0) 1
        ⟨true, ["c"]⟩
      = ([.skip (slice [(1, Event.text "foo")] 0 1)], ⟨true, ["c"]⟩)
    ∧ ((intoGroups noSyntax trivialSerializer [(1, Event.text "foo")] (.translate 0) 1
        ⟨false, []⟩).2).skip_next_group = false
    ∧ groupGo noDirective noSyntax trivialSerializer [(1, Event.text "foo")] [] 1
        (.translate 0) ⟨true, []⟩
      = [.translate [(1, Event.text "foo")] ""] := by
  refine ⟨?_, ?_, ?_, ?_⟩
  · exact (C7_skip_directive noDirective noSyntax trivialSerializer).1
      [(1, Event.text "foo")] 0 1 ⟨true, []⟩ rfl
  · exact (C7_skip_directive noDirective noSyntax trivialSerializer).2.1
      [(1, Event.text "foo")] 0 1 ⟨true, ["c"]⟩
  · exact (C7_skip_directive noDirective noSyntax trivialSerializer).2.2.1
      [(1, Event.text "foo")] 0 1 ⟨false, []⟩ rfl
  · exact ((C7_skip_directive noDirective noSyntax trivialSerializer).2.2.2
      [(1, Event.text "foo")] 1 0 ⟨true, []⟩).trans (by decide)

/-- C8: the source field is `path` at granularity 0, `path:lineno` at
granularity 1, and `path:max(1, lineno - lineno mod g)` at granularity
`g ≥ 2`. -/
theorem C8_build_source (path : String) (lineno granularity : Nat) :
    build_source path lineno 0 = path
    ∧ build_source path lineno 1 = path ++ ":" ++ toString lineno
    ∧ (2 ≤ granularity →
        build_source path lineno granularity
          = path ++ ":" ++ toString (max 1 (lineno - lineno % granularity))) := by
  refine ⟨rfl, rfl, ?_⟩
  intro hg
  match granularity, hg with
  | n + 2, _ => rfl

/-- C8 witness: the rounding at granularity 10, matching the doc
comment of `build_source` (`foo.md:17` becomes `foo.md:10`). -/
theorem C8_witness : build_source "foo.md" 17 10 = "foo.md:10" := by
  have h := (C8_build_source "foo.md" 17 10).2.2 (by decide)
  exact h.trans (by decide)

/-- C9: `normalize` transfers the input catalog's metadata unchanged to
the output catalog; only the message entries are rewritten. -/
theorem C9_normalize_metadata (extractF : PoMessage → MessageField → List (Nat × String))
    (wrap : String → String) (catalog : Catalog) :
    (normalize extractF wrap catalog).metadata = catalog.metadata := rfl

/-- C10: `pop` is total and never underflows: at depth 0 it leaves the
builder unchanged, and at a depth beyond `max_depth` it only decrements
the depth, removing no path segment. -/
theorem C10_pop_behavior :
    (∀ b : UniquePathBuilder, b.current_depth = 0 → b.pop = b)
    ∧ (∀ b : UniquePathBuilder, b.max_depth < b.current_depth →
        b.pop = { b with current_depth := b.current_depth - 1 }) := by
  constructor
  · intro b h
    unfold UniquePathBuilder.pop
    rw [if_pos h]
  · intro b h
    unfold UniquePathBuilder.pop
    rw [if_neg (by omega)]
    dsimp only
    rw [if_neg (by omega)]

/-- C10 witness: `pop` at depth 0 and `pop` beyond the maximum depth,
at concrete builders. -/
theorem C10_witness :
    UniquePathBuilder.pop ⟨[], 0, 2, []⟩ = ⟨[], 0, 2, []⟩
    ∧ UniquePathBuilder.pop ⟨["a"], 3, 2, []⟩ = ⟨["a"], 2, 2, []⟩ :=
  ⟨C10_pop_behavior.1 ⟨[], 0, 2, []⟩ rfl,
   C10_pop_behavior.2 ⟨["a"], 3, 2, []⟩ (by decide)⟩

end MdbookI18n
